import Mathlib

/-!
# Easy2D `scripts/auto-convert-encoding.js`: encoding detection and transcoding

A shallow embedding of the detection / transcoding engine of
`src/scripts/auto-convert-encoding.js`.

* A Node `Buffer` is a list of bytes (`Nat`, each in `0 .. 255`).
* A JavaScript string is the list of its UTF-16 code units.
* `require('iconv-lite')` either yields the codec library or throws; the
  outcome is the parameter `lib : Option Iconv`.
* A thrown exception is `Except.error`.
-/

namespace Easy2D

/-! ## Data model -/

/-- A Node `Buffer`: a sequence of bytes. -/
abbrev Buffer := List Nat

/-- A JavaScript string: its UTF-16 code units. -/
abbrev JSString := List Nat

/-- The encoding labels the script passes around as strings. -/
inductive Encoding where
  | utf8
  | utf8bom
  | utf16le
  | utf16be
  | gbk
  | ascii
  deriving DecidableEq, Repr

/-- The string each label stands for. -/
def Encoding.label : Encoding → String
  | .utf8 => "utf-8"
  | .utf8bom => "utf-8-bom"
  | .utf16le => "utf-16le"
  | .utf16be => "utf-16be"
  | .gbk => "gbk"
  | .ascii => "ascii"

/-- The list `SUPPORTED_ENCODINGS`. -/
def SUPPORTED_ENCODINGS : List Encoding :=
  [.utf8, .utf8bom, .utf16le, .utf16be, .gbk]

/-- The exceptions the engine can raise. -/
inductive JSError where
  /-- `Buffer.alloc` with a negative size. -/
  | rangeError
  /-- `require('iconv-lite')` when the module is not installed. -/
  | moduleNotFound
  deriving DecidableEq, Repr

/-- The codec library `iconv-lite`, as far as the script uses it:
`iconv.decode(buffer, 'gbk')`, which returns a string (16-bit code units), and
`iconv.encode(str, 'gbk')`, which returns a `Buffer` (bytes). -/
structure Iconv where
  decode : Buffer → JSString
  encode : JSString → Buffer
  decode_units : ∀ buffer, ∀ u ∈ decode buffer, u < 65536
  encode_bytes : ∀ str, ∀ x ∈ encode str, x < 256

/-- The element read `buffer[i]`; every read the script makes of a value it
compares is guarded by a length test, and an out-of-range read that is
stored into a `Buffer` is stored as `0`. -/
def byteAt (buffer : Buffer) (i : Nat) : Nat := buffer.getD i 0

/-! ## `isValidUTF8` -/

/-- The `while (i < buffer.length)` loop of `isValidUTF8`, from index `i`. -/
def isValidUTF8.loop (buffer : Buffer) (i : Nat) : Bool :=
  if i < buffer.length then
    if byteAt buffer i < 0x80 then
      isValidUTF8.loop buffer (i + 1)
    else if byteAt buffer i &&& 0xE0 = 0xC0 then
      if i + 1 ≥ buffer.length ∨ byteAt buffer (i + 1) &&& 0xC0 ≠ 0x80 then
        false
      else
        isValidUTF8.loop buffer (i + 2)
    else if byteAt buffer i &&& 0xF0 = 0xE0 then
      if i + 2 ≥ buffer.length ∨
          byteAt buffer (i + 1) &&& 0xC0 ≠ 0x80 ∨
          byteAt buffer (i + 2) &&& 0xC0 ≠ 0x80 then
        false
      else
        isValidUTF8.loop buffer (i + 3)
    else if byteAt buffer i &&& 0xF8 = 0xF0 then
      if i + 3 ≥ buffer.length ∨
          byteAt buffer (i + 1) &&& 0xC0 ≠ 0x80 ∨
          byteAt buffer (i + 2) &&& 0xC0 ≠ 0x80 ∨
          byteAt buffer (i + 3) &&& 0xC0 ≠ 0x80 then
        false
      else
        isValidUTF8.loop buffer (i + 4)
    else
      false
  else
    true
termination_by buffer.length - i
decreasing_by all_goals omega

/-- The function `isValidUTF8(buffer)`. -/
def isValidUTF8 (buffer : Buffer) : Bool := isValidUTF8.loop buffer 0

/-! ## `detectEncoding` -/

/-- The `for` loop of `detectEncoding` computing `isAscii`, from index `i`:
`false` as soon as a byte above `0x7F` is met. -/
def detectEncoding.isAscii (buffer : Buffer) (i : Nat) : Bool :=
  if i < buffer.length then
    if byteAt buffer i > 0x7F then false
    else detectEncoding.isAscii buffer (i + 1)
  else
    true
termination_by buffer.length - i
decreasing_by all_goals omega

/-- The function `detectEncoding(buffer)`. -/
def detectEncoding (buffer : Buffer) : Encoding :=
  if buffer.length ≥ 2 ∧ byteAt buffer 0 = 0xFF ∧ byteAt buffer 1 = 0xFE then
    .utf16le
  else if buffer.length ≥ 2 ∧ byteAt buffer 0 = 0xFE ∧ byteAt buffer 1 = 0xFF then
    .utf16be
  else if buffer.length ≥ 3 ∧ byteAt buffer 0 = 0xEF ∧ byteAt buffer 1 = 0xBB ∧
      byteAt buffer 2 = 0xBF then
    .utf8bom
  else if detectEncoding.isAscii buffer 0 then
    .ascii
  else if isValidUTF8 buffer then
    .utf8
  else
    .gbk

/-! ## `GBKDecoder` -/

/-- The call `String.fromCharCode(n)`: one code unit, `n` reduced to 16 bits. -/
def fromCharCode (n : Nat) : JSString := [n % 65536]

/-- The method `GBKDecoder.fallbackGbkToUnicode(gbkCode)`; `none` is `null`. -/
def GBKDecoder.fallbackGbkToUnicode (gbkCode : Nat) : Option Nat :=
  let zoneCode := (gbkCode >>> 8) &&& 0xFF
  let posCode := gbkCode &&& 0xFF
  if zoneCode ≥ 0xB0 ∧ zoneCode ≤ 0xD7 ∧ posCode ≥ 0xA1 ∧ posCode ≤ 0xFE then
    some (0x4E00 + ((zoneCode - 0xB0) * 94 + (posCode - 0xA1)))
  else if zoneCode ≥ 0x81 ∧ zoneCode ≤ 0xFE ∧ posCode ≥ 0x40 ∧ posCode ≤ 0xFE ∧
      posCode ≠ 0x7F then
    some (0x4E00 + ((zoneCode - 0x81) * 191 + (posCode - 0x40)))
  else
    none

/-- The method `GBKDecoder.gbkToUnicode(gbkCode)`: with the library,
`str.charCodeAt(0)` of the library's decoding of the two bytes (the `NaN` of
an empty `str` is never `null` and `String.fromCharCode(NaN)` is the unit `0`,
so it is returned as `0`); when `require` throws, the formula fallback. -/
def GBKDecoder.gbkToUnicode (lib : Option Iconv) (gbkCode : Nat) : Option Nat :=
  match lib with
  | some iconv =>
    some ((iconv.decode [(gbkCode >>> 8) &&& 0xFF, gbkCode &&& 0xFF]).headD 0)
  | none => GBKDecoder.fallbackGbkToUnicode gbkCode

/-- The `while (i < buffer.length)` loop of `GBKDecoder.decode`, from index
`i` with the text `result` built so far. -/
def GBKDecoder.decode.loop (lib : Option Iconv) (buffer : Buffer) (i : Nat)
    (result : JSString) : JSString :=
  if i < buffer.length then
    if byteAt buffer i < 0x80 then
      GBKDecoder.decode.loop lib buffer (i + 1) (result ++ fromCharCode (byteAt buffer i))
    else if i + 1 < buffer.length then
      match GBKDecoder.gbkToUnicode lib
          ((byteAt buffer i <<< 8) ||| byteAt buffer (i + 1)) with
      | some unicode =>
        GBKDecoder.decode.loop lib buffer (i + 2) (result ++ fromCharCode unicode)
      | none =>
        GBKDecoder.decode.loop lib buffer (i + 1) (result ++ [0xFFFD])
    else
      GBKDecoder.decode.loop lib buffer (i + 1) (result ++ [0xFFFD])
  else
    result
termination_by buffer.length - i
decreasing_by all_goals omega

/-- The method `GBKDecoder.decode(buffer)`. -/
def GBKDecoder.decode (lib : Option Iconv) (buffer : Buffer) : JSString :=
  GBKDecoder.decode.loop lib buffer 0 []

/-! ## The Node `Buffer` operations the script calls -/

/-- The UTF-8 bytes of one code point below `0x110000`. -/
def utf8Bytes (cp : Nat) : Buffer :=
  if cp < 0x80 then [cp]
  else if cp < 0x800 then [0xC0 + cp / 64, 0x80 + cp % 64]
  else if cp < 0x10000 then [0xE0 + cp / 4096, 0x80 + cp / 64 % 64, 0x80 + cp % 64]
  else [0xF0 + cp / 262144, 0x80 + cp / 4096 % 64, 0x80 + cp / 64 % 64, 0x80 + cp % 64]

/-- The call `Buffer.from(str, 'utf8')`: a surrogate pair is written as the
four bytes of its code point, an unpaired surrogate as `EF BF BD`, every other
code unit as its one to three bytes. -/
def bufferFromUtf8 : JSString → Buffer
  | [] => []
  | [u] =>
    if 0xD800 ≤ u ∧ u ≤ 0xDFFF then [0xEF, 0xBF, 0xBD] else utf8Bytes u
  | u :: v :: rest =>
    if 0xD800 ≤ u ∧ u ≤ 0xDBFF then
      if 0xDC00 ≤ v ∧ v ≤ 0xDFFF then
        utf8Bytes (0x10000 + (u - 0xD800) * 0x400 + (v - 0xDC00)) ++ bufferFromUtf8 rest
      else
        [0xEF, 0xBF, 0xBD] ++ bufferFromUtf8 (v :: rest)
    else if 0xDC00 ≤ u ∧ u ≤ 0xDFFF then
      [0xEF, 0xBF, 0xBD] ++ bufferFromUtf8 (v :: rest)
    else
      utf8Bytes u ++ bufferFromUtf8 (v :: rest)

/-- The call `Buffer.from(str, 'utf16le')`: low byte then high byte of every
code unit. -/
def bufferFromUtf16le (str : JSString) : Buffer :=
  str.flatMap fun u => [u % 256, u / 256 % 256]

/-- The call `buffer.toString('utf16le')`: one code unit per byte pair, an odd
last byte is dropped. -/
def toStringUtf16le : Buffer → JSString
  | lo :: hi :: rest => (lo + 256 * hi) :: toStringUtf16le rest
  | _ => []

/-- The call `buffer.toString('ascii')`: every byte with its high bit cleared. -/
def toStringAscii (buffer : Buffer) : JSString :=
  buffer.map fun b => b &&& 0x7F

/-- The state of the UTF-8 decoder behind `buffer.toString('utf8')`. -/
structure Utf8Decoder where
  codePoint : Nat
  bytesSeen : Nat
  bytesNeeded : Nat
  lower : Nat
  upper : Nat
  deriving DecidableEq, Repr

/-- The decoder between two characters. -/
def Utf8Decoder.initial : Utf8Decoder := ⟨0, 0, 0, 0x80, 0xBF⟩

/-- A byte met between two characters: the code points emitted and the next
state. -/
def Utf8Decoder.lead (byte : Nat) : List Nat × Utf8Decoder :=
  if byte ≤ 0x7F then ([byte], Utf8Decoder.initial)
  else if 0xC2 ≤ byte ∧ byte ≤ 0xDF then ([], ⟨byte &&& 0x1F, 0, 1, 0x80, 0xBF⟩)
  else if 0xE0 ≤ byte ∧ byte ≤ 0xEF then
    ([], ⟨byte &&& 0xF, 0, 2, if byte = 0xE0 then 0xA0 else 0x80,
      if byte = 0xED then 0x9F else 0xBF⟩)
  else if 0xF0 ≤ byte ∧ byte ≤ 0xF4 then
    ([], ⟨byte &&& 0x7, 0, 3, if byte = 0xF0 then 0x90 else 0x80,
      if byte = 0xF4 then 0x8F else 0xBF⟩)
  else ([0xFFFD], Utf8Decoder.initial)

/-- One byte through the decoder: a byte that cannot continue the pending
character ends it with U+FFFD and is read again as a lead byte. -/
def Utf8Decoder.step (st : Utf8Decoder) (byte : Nat) : List Nat × Utf8Decoder :=
  if st.bytesNeeded = 0 then Utf8Decoder.lead byte
  else if byte < st.lower ∨ st.upper < byte then
    (0xFFFD :: (Utf8Decoder.lead byte).1, (Utf8Decoder.lead byte).2)
  else if st.bytesSeen + 1 ≠ st.bytesNeeded then
    ([], ⟨(st.codePoint <<< 6) ||| (byte &&& 0x3F), st.bytesSeen + 1, st.bytesNeeded,
      0x80, 0xBF⟩)
  else
    ([(st.codePoint <<< 6) ||| (byte &&& 0x3F)], Utf8Decoder.initial)

/-- The code points the decoder emits for the rest of a buffer; a character
still pending at the end is U+FFFD. -/
def Utf8Decoder.run : Utf8Decoder → Buffer → List Nat
  | st, [] => if st.bytesNeeded ≠ 0 then [0xFFFD] else []
  | st, byte :: rest => (st.step byte).1 ++ Utf8Decoder.run (st.step byte).2 rest

/-- The UTF-16 code units of one code point. -/
def utf16Units (cp : Nat) : JSString :=
  if cp < 0x10000 then [cp]
  else [0xD800 + (cp - 0x10000) / 0x400, 0xDC00 + (cp - 0x10000) % 0x400]

/-- The call `buffer.toString('utf8')`: ill-formed input is decoded to U+FFFD,
a leading U+FEFF is kept. -/
def toStringUtf8 (buffer : Buffer) : JSString :=
  (Utf8Decoder.run Utf8Decoder.initial buffer).flatMap utf16Units

/-- The call `Buffer.alloc(size)` for a size computed as `n - k`: zero-filled,
and a `RangeError` when the size is negative. -/
def bufferAlloc (n k : Nat) : Except JSError Buffer :=
  if n < k then .error .rangeError else .ok (List.replicate (n - k) 0)

/-! ## `decodeBuffer` and `encodeToBuffer` -/

/-- The `for (let i = 2; i < buffer.length; i += 2)` loop of `decodeBuffer`
for `'utf-16be'`, from index `i`; a store past the end of `leBuffer` is
ignored. -/
def decodeBuffer.swapLoop (buffer leBuffer : Buffer) (i : Nat) : Buffer :=
  if i < buffer.length then
    decodeBuffer.swapLoop buffer
      ((leBuffer.set (i - 2) (byteAt buffer (i + 1))).set (i - 1) (byteAt buffer i)) (i + 2)
  else
    leBuffer
termination_by buffer.length - i
decreasing_by all_goals omega

/-- The function `decodeBuffer(buffer, encoding)`. -/
def decodeBuffer (lib : Option Iconv) (buffer : Buffer) (encoding : Encoding) :
    Except JSError JSString :=
  match encoding with
  | .utf8bom => .ok (toStringUtf8 (buffer.drop 3))
  | .utf8 => .ok (toStringUtf8 buffer)
  | .ascii => .ok (toStringAscii buffer)
  | .utf16le => .ok (toStringUtf16le (buffer.drop 2))
  | .utf16be =>
    match bufferAlloc buffer.length 2 with
    | .error e => .error e
    | .ok leBuffer => .ok (toStringUtf16le (decodeBuffer.swapLoop buffer leBuffer 2))
  | .gbk =>
    match lib with
    | some iconv => .ok (iconv.decode buffer)
    | none => .ok (GBKDecoder.decode none buffer)

/-- The `for (let i = 0; i < utf16leTemp.length; i += 2)` loop of
`encodeToBuffer` for `'utf-16be'`, from index `i`. -/
def encodeToBuffer.swapLoop (utf16leTemp utf16beBuffer : Buffer) (i : Nat) : Buffer :=
  if i < utf16leTemp.length then
    encodeToBuffer.swapLoop utf16leTemp
      ((utf16beBuffer.set i (byteAt utf16leTemp (i + 1))).set (i + 1) (byteAt utf16leTemp i))
      (i + 2)
  else
    utf16beBuffer
termination_by utf16leTemp.length - i
decreasing_by all_goals omega

/-- The function `encodeToBuffer(str, targetEncoding)`; the `default:` branch
is the one taken for `'ascii'`. -/
def encodeToBuffer (lib : Option Iconv) (str : JSString) (targetEncoding : Encoding) :
    Except JSError Buffer :=
  match targetEncoding with
  | .utf8 => .ok (bufferFromUtf8 str)
  | .utf8bom => .ok ([0xEF, 0xBB, 0xBF] ++ bufferFromUtf8 str)
  | .utf16le => .ok ([0xFF, 0xFE] ++ bufferFromUtf16le str)
  | .utf16be =>
    .ok ([0xFE, 0xFF] ++
      encodeToBuffer.swapLoop (bufferFromUtf16le str)
        (List.replicate (bufferFromUtf16le str).length 0) 0)
  | .gbk =>
    match lib with
    | some iconv => .ok (iconv.encode str)
    | none => .error .moduleNotFound
  | .ascii => .ok (bufferFromUtf8 str)

/-! ## The batch loop of `main` -/

/-- The outcome the loop reports for one file. -/
inductive Status where
  | converted
  | skipped
  | errored
  deriving DecidableEq, Repr

/-- The body of the `for (const file of files)` loop of `main` on a file whose
content is `buffer`: the outcome counted and the content of the file
afterwards (the file is written only after a successful encode). -/
def processFile (lib : Option Iconv) (targetEncoding : Encoding) (buffer : Buffer) :
    Status × Buffer :=
  if detectEncoding buffer = targetEncoding then
    (.skipped, buffer)
  else
    match decodeBuffer lib buffer (detectEncoding buffer) with
    | .error _ => (.errored, buffer)
    | .ok str =>
      match encodeToBuffer lib str targetEncoding with
      | .error _ => (.errored, buffer)
      | .ok outputBuffer => (.converted, outputBuffer)

/-- What `main` accumulates while it walks the files: the three counters,
the histogram `encodingStats`, and for every file handled so far, in order,
the outcome reported and the content of the file afterwards. -/
structure Tally where
  converted : Nat
  skipped : Nat
  errors : Nat
  encodingStats : Encoding → Nat
  outcomes : List (Status × Buffer)

/-- The accumulators before the loop: `converted = 0`, `skipped = 0`,
`errors = 0`, `encodingStats = {}`. -/
def Tally.initial : Tally := ⟨0, 0, 0, fun _ => 0, []⟩

/-- The statement `encodingStats[encoding] = (encodingStats[encoding] || 0) + 1`. -/
def bumpStats (encodingStats : Encoding → Nat) (encoding : Encoding) : Encoding → Nat :=
  fun e => if e = encoding then encodingStats e + 1 else encodingStats e

/-- The `for (const file of files)` loop of `main` over the contents of the
files, in order: each file goes through the loop body, whatever happened to
the files before it, and exactly one counter is incremented for it. -/
def mainLoop (lib : Option Iconv) (targetEncoding : Encoding) : List Buffer → Tally → Tally
  | [], st => st
  | buffer :: files, st =>
    match processFile lib targetEncoding buffer with
    | (.converted, content) =>
      mainLoop lib targetEncoding files
        ⟨st.converted + 1, st.skipped, st.errors,
          bumpStats st.encodingStats (detectEncoding buffer),
          st.outcomes ++ [(.converted, content)]⟩
    | (.skipped, content) =>
      mainLoop lib targetEncoding files
        ⟨st.converted, st.skipped + 1, st.errors,
          bumpStats st.encodingStats (detectEncoding buffer),
          st.outcomes ++ [(.skipped, content)]⟩
    | (.errored, content) =>
      mainLoop lib targetEncoding files
        ⟨st.converted, st.skipped, st.errors + 1,
          bumpStats st.encodingStats (detectEncoding buffer),
          st.outcomes ++ [(.errored, content)]⟩

/-! ## What the specification says, for comparison with the code -/

/-- A Unicode scalar value: U+0000 .. U+10FFFF without the surrogates. -/
def isScalarValue (c : Nat) : Prop := c < 0xD800 ∨ (0xE000 ≤ c ∧ c ≤ 0x10FFFF)

instance : DecidablePred isScalarValue := fun c => by
  unfold isScalarValue; infer_instance

/-- The standard UTF-8 encoding of a sequence of code points. -/
def utf8Encode (cps : List Nat) : Buffer := cps.flatMap utf8Bytes

/-- The number of continuation bytes the specification's Utf8Validator has a
lead byte in `0xC0 .. 0xF7` expect. -/
def continuationBytes (lead : Nat) : Nat :=
  if lead ≤ 0xDF then 1 else if lead ≤ 0xEF then 2 else 3

/-- The decision order of the specification's ByteSniffer, rule by rule. -/
def detectSpec (b : Buffer) : Encoding :=
  if b.length ≥ 2 ∧ [0xFF, 0xFE] <+: b then .utf16le
  else if b.length ≥ 2 ∧ [0xFE, 0xFF] <+: b then .utf16be
  else if b.length ≥ 3 ∧ [0xEF, 0xBB, 0xBF] <+: b then .utf8bom
  else if ∀ x ∈ b, x ≤ 0x7F then .ascii
  else if isValidUTF8 b then .utf8
  else .gbk

/-- A buffer with the two bytes of every pair exchanged; an odd last byte
stays. -/
def swapPairs : Buffer → Buffer
  | a :: b :: rest => b :: a :: swapPairs rest
  | rest => rest

/-- Big-endian UTF-16: one code unit per byte pair, high byte first; an odd
last byte is dropped. -/
def toStringUtf16be : Buffer → JSString
  | hi :: lo :: rest => (256 * hi + lo) :: toStringUtf16be rest
  | _ => []

/-- Encoding to a label and decoding the result back under the same label. -/
def roundTrip (lib : Option Iconv) (s : JSString) (t : Encoding) : Except JSError JSString :=
  match encodeToBuffer lib s t with
  | .error e => .error e
  | .ok b => decodeBuffer lib b t

/-- What the round trip on `gbk` needs of the codec library: GBK is a
superset of ASCII, so the library encodes ASCII text to the same bytes and
decodes ASCII bytes to the same text. -/
def Iconv.asciiUnchanged (iconv : Iconv) : Prop :=
  ∀ a : List Nat, (∀ x ∈ a, x ≤ 0x7F) → iconv.encode a = a ∧ iconv.decode a = a

/-- A stand-in for the codec library that is right on ASCII only: ASCII bytes
and characters pass unchanged, any other byte decodes to U+FFFD and any other
character encodes to `?`. It shows that `Iconv.asciiUnchanged` can be met. -/
def asciiOnlyIconv : Iconv where
  decode := fun buffer => buffer.map fun x => if x < 0x80 then x else 0xFFFD
  encode := fun str => str.map fun u => if u < 0x80 then u else 0x3F
  decode_units := by
    intro buffer u hu
    obtain ⟨x, -, rfl⟩ := List.mem_map.1 hu
    split_ifs <;> omega
  encode_bytes := by
    intro str x hx
    obtain ⟨u, -, rfl⟩ := List.mem_map.1 hx
    split_ifs <;> omega

/-! ## List forms of the loops, used in the proofs -/

/-- The scan of `isValidUTF8` as an automaton over the bytes not yet consumed:
`pending` is the number of continuation bytes the current lead byte still
waits for; `isValidUTF8_loop_append` shows the index loop computes it. -/
def scanUTF8 : Nat → Buffer → Bool
  | 0, [] => true
  | _ + 1, [] => false
  | 0, b :: rest =>
    if b < 0x80 then scanUTF8 0 rest
    else if b &&& 0xE0 = 0xC0 then scanUTF8 1 rest
    else if b &&& 0xF0 = 0xE0 then scanUTF8 2 rest
    else if b &&& 0xF8 = 0xF0 then scanUTF8 3 rest
    else false
  | k + 1, c :: rest => if c &&& 0xC0 = 0x80 then scanUTF8 k rest else false

/-- What holds of the UTF-8 decoder's state between two bytes: the code point
collected so far is bounded according to the bytes seen, and after the lead
byte `F4` the next byte is confined to `80 .. 8F`. -/
def Utf8Decoder.Inv (st : Utf8Decoder) : Prop :=
  st.bytesNeeded = 0 ∨
    (st.bytesNeeded = 1 ∧ st.bytesSeen = 0 ∧ st.codePoint < 32) ∨
    (st.bytesNeeded = 2 ∧ st.bytesSeen = 0 ∧ st.codePoint < 16) ∨
    (st.bytesNeeded = 2 ∧ st.bytesSeen = 1 ∧ st.codePoint < 0x400) ∨
    (st.bytesNeeded = 3 ∧ st.bytesSeen = 0 ∧ st.codePoint ≤ 4 ∧
      (st.codePoint = 4 → st.lower = 0x80 ∧ st.upper = 0x8F)) ∨
    (st.bytesNeeded = 3 ∧ st.bytesSeen = 1 ∧ st.codePoint < 0x110) ∨
    (st.bytesNeeded = 3 ∧ st.bytesSeen = 2 ∧ st.codePoint < 0x4400)

/-! ## Theorems -/

theorem byteAt_append_add (pre rest : Buffer) (k : Nat) :
    byteAt (pre ++ rest) (pre.length + k) = byteAt rest k := by
  simp [byteAt, List.getD_eq_getElem?_getD, List.getElem?_append_right]

theorem byteAt_append_length (pre rest : Buffer) :
    byteAt (pre ++ rest) pre.length = byteAt rest 0 := by
  simpa using byteAt_append_add pre rest 0

theorem byteAt_drop (buffer : Buffer) (i k : Nat) :
    byteAt (buffer.drop i) k = byteAt buffer (i + k) := by
  simp [byteAt, List.getD_eq_getElem?_getD]

theorem drop_eq_byteAt_cons (buffer : Buffer) (i : Nat) (h : i < buffer.length) :
    buffer.drop i = byteAt buffer i :: buffer.drop (i + 1) := by
  rw [List.drop_eq_getElem_cons h]
  simp [byteAt, List.getD_eq_getElem?_getD, List.getElem?_eq_getElem h]

theorem scanUTF8_one (rest : Buffer) :
    scanUTF8 1 rest = (decide (1 ≤ rest.length) &&
      (decide (byteAt rest 0 &&& 0xC0 = 0x80) && scanUTF8 0 (rest.drop 1))) := by
  cases rest with
  | nil => simp [scanUTF8]
  | cons c r => simp [scanUTF8, byteAt]

theorem scanUTF8_two (rest : Buffer) :
    scanUTF8 2 rest = (decide (2 ≤ rest.length) &&
      (decide (byteAt rest 0 &&& 0xC0 = 0x80) &&
        (decide (byteAt rest 1 &&& 0xC0 = 0x80) && scanUTF8 0 (rest.drop 2)))) := by
  cases rest with
  | nil => simp [scanUTF8]
  | cons c r =>
    rw [scanUTF8, scanUTF8_one]
    cases r with
    | nil => simp
    | cons c2 r2 => simp [byteAt]

theorem scanUTF8_three (rest : Buffer) :
    scanUTF8 3 rest = (decide (3 ≤ rest.length) &&
      (decide (byteAt rest 0 &&& 0xC0 = 0x80) &&
        (decide (byteAt rest 1 &&& 0xC0 = 0x80) &&
          (decide (byteAt rest 2 &&& 0xC0 = 0x80) && scanUTF8 0 (rest.drop 3))))) := by
  cases rest with
  | nil => simp [scanUTF8]
  | cons c r =>
    rw [scanUTF8, scanUTF8_two]
    cases r with
    | nil => simp
    | cons c2 r2 =>
      cases r2 with
      | nil => simp
      | cons c3 r3 => simp [byteAt]

theorem isValidUTF8_loop_drop (n : Nat) :
    ∀ (buffer : Buffer) (i : Nat), buffer.length - i ≤ n →
      isValidUTF8.loop buffer i = scanUTF8 0 (buffer.drop i) := by
  induction n using Nat.strong_induction_on with
  | _ n ih =>
    intro buffer i hn
    rw [isValidUTF8.loop]
    by_cases hlt : i < buffer.length
    · have e1 := ih (buffer.length - (i + 1)) (by omega) buffer (i + 1) le_rfl
      have e2 := ih (buffer.length - (i + 2)) (by omega) buffer (i + 2) le_rfl
      have e3 := ih (buffer.length - (i + 3)) (by omega) buffer (i + 3) le_rfl
      have e4 := ih (buffer.length - (i + 4)) (by omega) buffer (i + 4) le_rfl
      rw [if_pos hlt, drop_eq_byteAt_cons buffer i hlt, scanUTF8, scanUTF8_one, scanUTF8_two,
        scanUTF8_three, e1, e2, e3, e4]
      simp only [byteAt_drop, List.drop_drop, List.length_drop]
      have a1 : 1 + (i + 1) = i + 2 := by omega
      have a2 : 2 + (i + 1) = i + 3 := by omega
      have a3 : 3 + (i + 1) = i + 4 := by omega
      simp only [a1, a2, a3, Nat.add_zero, Nat.add_assoc, Nat.reduceAdd]
      split_ifs <;> simp_all <;> omega
    · rw [if_neg hlt, List.drop_eq_nil_of_le (by omega), scanUTF8]

/-- The index loop of `isValidUTF8` computes the automaton scan. -/
theorem isValidUTF8_eq_scan (buffer : Buffer) : isValidUTF8 buffer = scanUTF8 0 buffer := by
  simpa [isValidUTF8] using isValidUTF8_loop_drop buffer.length buffer 0 (by omega)

/-- A scan that accepts `p` is, on `p ++ q`, the scan of `q` from the start state. -/
theorem scanUTF8_append (p q : Buffer) :
    ∀ k, scanUTF8 k p = true → scanUTF8 k (p ++ q) = scanUTF8 0 q := by
  induction p with
  | nil =>
    intro k h
    cases k with
    | zero => rfl
    | succ k => simp [scanUTF8] at h
  | cons b r ih =>
    intro k h
    cases k with
    | zero =>
      rw [scanUTF8] at h
      rw [List.cons_append, scanUTF8]
      split_ifs at h ⊢ with h1 h2 h3 h4
      · exact ih 0 h
      · exact ih 1 h
      · exact ih 2 h
      · exact ih 3 h
    | succ k =>
      rw [scanUTF8] at h
      rw [List.cons_append, scanUTF8]
      split_ifs at h ⊢ with h1
      exact ih k h

theorem land_lead2 : ∀ x < 32, ¬ (0xC0 + x < 0x80) ∧ (0xC0 + x) &&& 0xE0 = 0xC0 := by
  decide

theorem land_lead3 : ∀ x < 16, ¬ (0xE0 + x < 0x80) ∧ (0xE0 + x) &&& 0xE0 ≠ 0xC0 ∧
    (0xE0 + x) &&& 0xF0 = 0xE0 := by
  decide

theorem land_lead4 : ∀ x < 8, ¬ (0xF0 + x < 0x80) ∧ (0xF0 + x) &&& 0xE0 ≠ 0xC0 ∧
    (0xF0 + x) &&& 0xF0 ≠ 0xE0 ∧ (0xF0 + x) &&& 0xF8 = 0xF0 := by
  decide

theorem land_cont : ∀ x < 64, (0x80 + x) &&& 0xC0 = 0x80 := by
  decide

/-- The bytes of one code point below `0x200000` are accepted by the scan. -/
theorem scanUTF8_utf8Bytes (cp : Nat) (h : cp < 0x200000) :
    scanUTF8 0 (utf8Bytes cp) = true := by
  unfold utf8Bytes
  have c0 := land_cont (cp % 64) (Nat.mod_lt _ (by norm_num))
  have c1 := land_cont (cp / 64 % 64) (Nat.mod_lt _ (by norm_num))
  have c2 := land_cont (cp / 4096 % 64) (Nat.mod_lt _ (by norm_num))
  split_ifs with h1 h2 h3
  · simp [scanUTF8, h1]
  · obtain ⟨a, b⟩ := land_lead2 (cp / 64) (by omega)
    simp [scanUTF8, a, b, c0]
  · obtain ⟨a, b, c⟩ := land_lead3 (cp / 4096) (by omega)
    simp [scanUTF8, a, b, c, c0, c1]
  · obtain ⟨a, b, c, d⟩ := land_lead4 (cp / 262144) (by omega)
    simp [scanUTF8, a, b, c, d, c0, c1, c2]

theorem scanUTF8_utf8Encode (cps : List Nat) (h : ∀ c ∈ cps, isScalarValue c) :
    scanUTF8 0 (utf8Encode cps) = true := by
  induction cps with
  | nil => rfl
  | cons c cs ih =>
    have hc : c < 0x200000 := by
      have := h c (List.mem_cons_self _ _)
      unfold isScalarValue at this
      omega
    have hcs : ∀ x ∈ cs, isScalarValue x := fun x hx => h x (List.mem_cons_of_mem _ hx)
    show scanUTF8 0 (List.flatMap (c :: cs) utf8Bytes) = true
    rw [List.flatMap_cons, scanUTF8_append _ _ 0 (scanUTF8_utf8Bytes c hc)]
    exact ih hcs

/-- C1: the standard UTF-8 encoding of any sequence of Unicode scalar values
is accepted by `isValidUTF8`. -/
theorem isValidUTF8_utf8Encode (cps : List Nat) (h : ∀ c ∈ cps, isScalarValue c) :
    isValidUTF8 (utf8Encode cps) = true := by
  rw [isValidUTF8_eq_scan]
  exact scanUTF8_utf8Encode cps h

/-- C1 at the text U+0068 U+00E9 U+4E2D U+1F600, one character of each length. -/
theorem isValidUTF8_utf8Encode_witness :
    (∀ c ∈ [0x68, 0xE9, 0x4E2D, 0x1F600], isScalarValue c) ∧
      utf8Encode [0x68, 0xE9, 0x4E2D, 0x1F600] =
        [0x68, 0xC3, 0xA9, 0xE4, 0xB8, 0xAD, 0xF0, 0x9F, 0x98, 0x80] ∧
      isValidUTF8 (utf8Encode [0x68, 0xE9, 0x4E2D, 0x1F600]) = true :=
  ⟨by decide, by decide, isValidUTF8_utf8Encode [0x68, 0xE9, 0x4E2D, 0x1F600] (by decide)⟩

theorem isAscii_loop_drop (n : Nat) :
    ∀ (buffer : Buffer) (i : Nat), buffer.length - i ≤ n →
      detectEncoding.isAscii buffer i = (buffer.drop i).all fun x => decide (x ≤ 0x7F) := by
  induction n using Nat.strong_induction_on with
  | _ n ih =>
    intro buffer i hn
    rw [detectEncoding.isAscii]
    by_cases hlt : i < buffer.length
    · have e1 := ih (buffer.length - (i + 1)) (by omega) buffer (i + 1) le_rfl
      rw [if_pos hlt, drop_eq_byteAt_cons buffer i hlt, e1, List.all_cons]
      split_ifs with h
      · simp; omega
      · simp; omega
    · rw [if_neg hlt, List.drop_eq_nil_of_le (by omega)]
      rfl

/-- The `isAscii` loop of `detectEncoding` holds exactly when no byte exceeds `0x7F`. -/
theorem isAscii_iff (buffer : Buffer) :
    detectEncoding.isAscii buffer 0 = true ↔ ∀ x ∈ buffer, x ≤ 0x7F := by
  rw [isAscii_loop_drop buffer.length buffer 0 (by omega)]
  simp

theorem starts2_iff (buffer : Buffer) (x y : Nat) :
    (buffer.length ≥ 2 ∧ byteAt buffer 0 = x ∧ byteAt buffer 1 = y) ↔
      (buffer.length ≥ 2 ∧ [x, y] <+: buffer) := by
  match buffer with
  | [] => simp
  | [a] => simp
  | a :: b :: r => simp [byteAt, List.prefix_cons_inj, eq_comm]

theorem starts3_iff (buffer : Buffer) (x y z : Nat) :
    (buffer.length ≥ 3 ∧ byteAt buffer 0 = x ∧ byteAt buffer 1 = y ∧ byteAt buffer 2 = z) ↔
      (buffer.length ≥ 3 ∧ [x, y, z] <+: buffer) := by
  match buffer with
  | [] => simp
  | [a] => simp
  | [a, b] => simp
  | a :: b :: c :: r => simp [byteAt, List.prefix_cons_inj, eq_comm]

/-- The code's `detectEncoding` and the specification's decision order agree. -/
theorem detectEncoding_eq (b : Buffer) : detectEncoding b = detectSpec b := by
  unfold detectEncoding detectSpec
  simp only [starts2_iff, starts3_iff, isAscii_iff]

/-- The decision order with the validity test read as the automaton scan. -/
theorem detectEncoding_scan (b : Buffer) :
    detectEncoding b =
      if b.length ≥ 2 ∧ [0xFF, 0xFE] <+: b then .utf16le
      else if b.length ≥ 2 ∧ [0xFE, 0xFF] <+: b then .utf16be
      else if b.length ≥ 3 ∧ [0xEF, 0xBB, 0xBF] <+: b then .utf8bom
      else if ∀ x ∈ b, x ≤ 0x7F then .ascii
      else if scanUTF8 0 b then .utf8
      else .gbk := by
  rw [detectEncoding_eq, detectSpec, isValidUTF8_eq_scan]

/-- C2: `detectEncoding` returns the label of the first matching rule of the
specification's decision order, for every buffer (the empty one is `ascii`),
and the label is one of the six. -/
theorem detectEncoding_refines_detectSpec (b : Buffer) :
    detectEncoding b = detectSpec b ∧
      detectEncoding [] = Encoding.ascii ∧
      detectEncoding b ∈
        [Encoding.utf16le, Encoding.utf16be, Encoding.utf8bom, Encoding.ascii,
          Encoding.utf8, Encoding.gbk] := by
  refine ⟨detectEncoding_eq b, ?_, ?_⟩
  · rw [detectEncoding_scan]; decide
  · cases detectEncoding b <;> simp

theorem scanUTF8_short : ∀ (c : Buffer) (k : Nat), c.length < k → scanUTF8 k c = false := by
  intro c
  induction c with
  | nil =>
    intro k h
    cases k with
    | zero => simp at h
    | succ k => rfl
  | cons x r ih =>
    intro k h
    cases k with
    | zero => simp at h
    | succ k =>
      rw [scanUTF8]
      split_ifs
      · exact ih k (by simpa using h)
      · rfl

/-- A lead byte in `0xC0 .. 0xF7` puts the scan in the state that waits for
`continuationBytes` more bytes. -/
theorem scanUTF8_lead (lead : Nat) (rest : Buffer) (h1 : 0xC0 ≤ lead) (h2 : lead ≤ 0xF7) :
    scanUTF8 0 (lead :: rest) = scanUTF8 (continuationBytes lead) rest := by
  rw [scanUTF8, continuationBytes]
  by_cases a : lead ≤ 0xDF
  · obtain ⟨x, y⟩ := land_lead2 (lead - 0xC0) (by omega)
    rw [show 0xC0 + (lead - 0xC0) = lead by omega] at x y
    simp [a, x, y]
  · by_cases b : lead ≤ 0xEF
    · obtain ⟨x, y, z⟩ := land_lead3 (lead - 0xE0) (by omega)
      rw [show 0xE0 + (lead - 0xE0) = lead by omega] at x y z
      simp [a, b, x, y, z]
    · obtain ⟨x, y, z, w⟩ := land_lead4 (lead - 0xF0) (by omega)
      rw [show 0xF0 + (lead - 0xF0) = lead by omega] at x y z w
      simp [a, b, x, y, z, w]

/-- C9: after any accepted prefix `p`, a lead byte in `0xC0 .. 0xF7` followed
by fewer bytes than it requires (whatever those bytes are, so in particular
continuation bytes `10xxxxxx`) up to the end of the buffer makes `isValidUTF8`
return false. -/
theorem isValidUTF8_truncated (p c : Buffer) (lead : Nat) (hp : isValidUTF8 p = true)
    (h1 : 0xC0 ≤ lead) (h2 : lead ≤ 0xF7) (hc : c.length < continuationBytes lead) :
    isValidUTF8 (p ++ [lead] ++ c) = false := by
  rw [isValidUTF8_eq_scan] at hp ⊢
  rw [List.append_assoc, scanUTF8_append p _ 0 hp, List.singleton_append,
    scanUTF8_lead lead c h1 h2]
  exact scanUTF8_short c _ hc

/-- C9 at the lone byte `0xE4`: empty prefix, no continuation byte of the two
required. -/
theorem isValidUTF8_truncated_witness :
    isValidUTF8 [] = true ∧ continuationBytes 0xE4 = 2 ∧ isValidUTF8 [0xE4] = false :=
  ⟨by rw [isValidUTF8_eq_scan]; rfl, by decide,
    isValidUTF8_truncated [] [] 0xE4 (by rw [isValidUTF8_eq_scan]; rfl) (by decide)
      (by decide) (by decide)⟩

/-- C10: `isValidUTF8` accepts the overlong `C0 80`, the surrogate half
`ED A0 80` and `F4 90 80 80` (beyond U+10FFFF), and `detectEncoding` labels
each of the three buffers `utf-8`. -/
theorem isValidUTF8_shape_only :
    isValidUTF8 [0xC0, 0x80] = true ∧
      isValidUTF8 [0xED, 0xA0, 0x80] = true ∧
      isValidUTF8 [0xF4, 0x90, 0x80, 0x80] = true ∧
      detectEncoding [0xC0, 0x80] = Encoding.utf8 ∧
      detectEncoding [0xED, 0xA0, 0x80] = Encoding.utf8 ∧
      detectEncoding [0xF4, 0x90, 0x80, 0x80] = Encoding.utf8 := by
  simp only [isValidUTF8_eq_scan, detectEncoding_scan]
  decide

/-- The 16-bit value `(byte << 8) | byte2` splits back into its two bytes. -/
theorem gbkCode_split (z p : Nat) (hz : z < 256) (hp : p < 256) :
    (((z <<< 8) ||| p) >>> 8) &&& 0xFF = z ∧ ((z <<< 8) ||| p) &&& 0xFF = p := by
  have e : (z <<< 8) ||| p = 256 * z + p := by
    rw [Nat.shiftLeft_eq, Nat.mul_comm]
    exact (Nat.mul_add_lt_is_or (show p < 2 ^ 8 by omega) z).symm
  have m : ∀ x : Nat, x &&& 0xFF = x % 256 := fun x => Nat.and_pow_two_sub_one_eq_mod x 8
  rw [e, m, m, Nat.shiftRight_eq_div_pow]
  omega

/-- The formula fallback on a pair of bytes, in terms of the two bytes. -/
theorem fallback_pair (z p : Nat) (hz : z < 256) (hp : p < 256) :
    GBKDecoder.fallbackGbkToUnicode ((z <<< 8) ||| p) =
      if z ≥ 0xB0 ∧ z ≤ 0xD7 ∧ p ≥ 0xA1 ∧ p ≤ 0xFE then
        some (0x4E00 + ((z - 0xB0) * 94 + (p - 0xA1)))
      else if z ≥ 0x81 ∧ z ≤ 0xFE ∧ p ≥ 0x40 ∧ p ≤ 0xFE ∧ p ≠ 0x7F then
        some (0x4E00 + ((z - 0x81) * 191 + (p - 0x40)))
      else none := by
  obtain ⟨a, b⟩ := gbkCode_split z p hz hp
  simp only [GBKDecoder.fallbackGbkToUnicode, a, b]

theorem decode_loop_done (lib : Option Iconv) (buffer : Buffer) (i : Nat) (r : JSString)
    (h : buffer.length ≤ i) : GBKDecoder.decode.loop lib buffer i r = r := by
  rw [GBKDecoder.decode.loop, if_neg (by omega)]

theorem decode_loop_ascii (lib : Option Iconv) (buffer : Buffer) (i : Nat) (r : JSString)
    (h : i < buffer.length) (ha : byteAt buffer i < 0x80) :
    GBKDecoder.decode.loop lib buffer i r =
      GBKDecoder.decode.loop lib buffer (i + 1) (r ++ fromCharCode (byteAt buffer i)) := by
  rw [GBKDecoder.decode.loop, if_pos h, if_pos ha]

theorem decode_loop_pair (lib : Option Iconv) (buffer : Buffer) (i u : Nat) (r : JSString)
    (h : i + 1 < buffer.length) (ha : ¬ byteAt buffer i < 0x80)
    (hu : GBKDecoder.gbkToUnicode lib ((byteAt buffer i <<< 8) ||| byteAt buffer (i + 1))
      = some u) :
    GBKDecoder.decode.loop lib buffer i r =
      GBKDecoder.decode.loop lib buffer (i + 2) (r ++ fromCharCode u) := by
  rw [GBKDecoder.decode.loop, if_pos (by omega), if_neg ha, if_pos h, hu]

theorem decode_loop_unmapped (lib : Option Iconv) (buffer : Buffer) (i : Nat) (r : JSString)
    (h : i + 1 < buffer.length) (ha : ¬ byteAt buffer i < 0x80)
    (hu : GBKDecoder.gbkToUnicode lib ((byteAt buffer i <<< 8) ||| byteAt buffer (i + 1))
      = none) :
    GBKDecoder.decode.loop lib buffer i r =
      GBKDecoder.decode.loop lib buffer (i + 1) (r ++ [0xFFFD]) := by
  rw [GBKDecoder.decode.loop, if_pos (by omega), if_neg ha, if_pos h, hu]

theorem decode_loop_last (lib : Option Iconv) (buffer : Buffer) (i : Nat) (r : JSString)
    (h : i < buffer.length) (hl : ¬ i + 1 < buffer.length) (ha : ¬ byteAt buffer i < 0x80) :
    GBKDecoder.decode.loop lib buffer i r =
      GBKDecoder.decode.loop lib buffer (i + 1) (r ++ [0xFFFD]) := by
  rw [GBKDecoder.decode.loop, if_pos h, if_neg ha, if_neg hl]

/-- With no codec library, `GBKDecoder.decode` on a two-byte buffer whose
first byte is not ASCII and whose pair the fallback maps. -/
theorem decode_pair_mapped (z p u : Nat) (hz : ¬ z < 0x80)
    (h : GBKDecoder.fallbackGbkToUnicode ((z <<< 8) ||| p) = some u) :
    GBKDecoder.decode none [z, p] = fromCharCode u := by
  unfold GBKDecoder.decode
  rw [decode_loop_pair none [z, p] 0 u [] (by simp) hz h,
    decode_loop_done none [z, p] 2 _ (by simp)]
  rfl

/-- With no codec library, `GBKDecoder.decode` on a two-byte buffer whose
first byte is not ASCII and whose pair the fallback does not map: U+FFFD for
the first byte alone, then the second byte is decoded on its own. -/
theorem decode_pair_unmapped (z p : Nat) (hz : ¬ z < 0x80) (hp : p < 65536)
    (h : GBKDecoder.fallbackGbkToUnicode ((z <<< 8) ||| p) = none) :
    GBKDecoder.decode none [z, p] = [0xFFFD, if p < 0x80 then p else 0xFFFD] := by
  unfold GBKDecoder.decode
  rw [decode_loop_unmapped none [z, p] 0 [] (by simp) hz h]
  by_cases ha : p < 0x80
  · rw [decode_loop_ascii none [z, p] 1 _ (by simp) ha,
      decode_loop_done none [z, p] 2 _ (by simp), if_pos ha]
    simp [byteAt, fromCharCode]
    omega
  · rw [decode_loop_last none [z, p] 1 _ (by simp) (by simp) ha,
      decode_loop_done none [z, p] 2 _ (by simp), if_neg ha]
    rfl

/-- C7: with no codec library, `GBKDecoder.decode` of `[z, p]`, lead byte `z`
in `0xB0 .. 0xD7` and trail byte `p` in `0xA1 .. 0xFE`, is the one-character
text of code point `0x4E00 + (z - 0xB0) * 94 + (p - 0xA1)`. -/
theorem decode_first_zone (z p : Nat) (hz : 0xB0 ≤ z ∧ z ≤ 0xD7) (hp : 0xA1 ≤ p ∧ p ≤ 0xFE) :
    GBKDecoder.decode none [z, p] = [0x4E00 + (z - 0xB0) * 94 + (p - 0xA1)] := by
  have h := fallback_pair z p (by omega) (by omega)
  rw [if_pos (by omega)] at h
  have hb : (z - 0xB0) * 94 ≤ 39 * 94 := Nat.mul_le_mul_right 94 (by omega)
  have e : (0x4E00 + ((z - 0xB0) * 94 + (p - 0xA1))) % 65536
      = 0x4E00 + (z - 0xB0) * 94 + (p - 0xA1) := by omega
  rw [decode_pair_mapped z p _ (by omega) h, fromCharCode, e]

/-- C7 at the pair `B0 A1`: it decodes to U+4E00. -/
theorem decode_first_zone_witness :
    (0xB0 ≤ 0xB0 ∧ 0xB0 ≤ 0xD7) ∧ (0xA1 ≤ 0xA1 ∧ 0xA1 ≤ 0xFE) ∧
      GBKDecoder.decode none [0xB0, 0xA1] = [0x4E00] :=
  ⟨by decide, by decide, decode_first_zone 0xB0 0xA1 (by decide) (by decide)⟩

/-- C8, as stated, fails: with no codec library the pair `FF 41` decodes to
the two characters U+FFFD `A`, not to the single character U+FFFD. -/
theorem decode_lead_FF_counterexample :
    GBKDecoder.decode none [0xFF, 0x41] = [0xFFFD, 0x41] ∧
      GBKDecoder.decode none [0xFF, 0x41] ≠ [0xFFFD] := by
  have h := decode_pair_unmapped 0xFF 0x41 (by decide) (by decide)
    (by rw [fallback_pair 0xFF 0x41 (by decide) (by decide)]; decide)
  rw [h]
  decide

/-- C8 amended: with no codec library, `GBKDecoder.decode` of `[0xFF, t]` is a
text of two characters: U+FFFD for the byte `FF` alone, then `t` itself when
`t` is ASCII and a second U+FFFD otherwise. -/
theorem decode_lead_FF (t : Nat) (ht : t < 256) :
    GBKDecoder.decode none [0xFF, t] = [0xFFFD, if t < 0x80 then t else 0xFFFD] := by
  have h := fallback_pair 0xFF t (by decide) ht
  rw [if_neg (by omega), if_neg (by omega)] at h
  exact decode_pair_unmapped 0xFF t (by decide) (by omega) h

/-- C8 amended at the trail byte `A1`. -/
theorem decode_lead_FF_witness :
    GBKDecoder.decode none [0xFF, 0xA1] = [0xFFFD, 0xFFFD] :=
  decode_lead_FF 0xA1 (by decide)

/-! ### The byte-swapping loops of `utf-16be` -/

theorem swapPairs_length : ∀ (n : Nat) (l : Buffer), l.length ≤ n →
    (swapPairs l).length = l.length := by
  intro n
  induction n using Nat.strong_induction_on with
  | _ n ih =>
    intro l hn
    match l with
    | [] => rfl
    | [a] => rfl
    | a :: b :: r =>
      simp only [swapPairs, List.length_cons]
      rw [ih r.length (by simp at hn; omega) r le_rfl]

theorem swapPairs_append : ∀ (n : Nat) (l r : Buffer), l.length ≤ n → l.length % 2 = 0 →
    swapPairs (l ++ r) = swapPairs l ++ swapPairs r := by
  intro n
  induction n using Nat.strong_induction_on with
  | _ n ih =>
    intro l r hn he
    match l with
    | [] => rfl
    | [a] => simp at he
    | a :: b :: t =>
      have h := ih t.length (by simp at hn; omega) t r le_rfl (by simp at he; omega)
      simp [swapPairs, h]

theorem encode_swapLoop_inv (n : Nat) :
    ∀ done todo tail : Buffer, todo.length ≤ n → done.length % 2 = 0 →
      todo.length % 2 = 0 → tail.length = todo.length →
      encodeToBuffer.swapLoop (done ++ todo) (swapPairs done ++ tail) done.length
        = swapPairs (done ++ todo) := by
  induction n using Nat.strong_induction_on with
  | _ n ih =>
    intro done todo tail hn hd ht hl
    rw [encodeToBuffer.swapLoop]
    match todo, tail, hn, ht, hl with
    | [], [], _, _, _ => simp
    | [a], _, _, ht, _ => simp at ht
    | a :: b :: t, x :: y :: tl, hn, ht, hl =>
      have hlen := swapPairs_length done.length done le_rfl
      have hlt : done.length < (done ++ a :: b :: t).length := by simp
      have ha : byteAt (done ++ a :: b :: t) done.length = a := by
        rw [byteAt_append_length]; rfl
      have hb : byteAt (done ++ a :: b :: t) (done.length + 1) = b := by
        rw [byteAt_append_add]; rfl
      have hset : ((swapPairs done ++ x :: y :: tl).set done.length b).set (done.length + 1) a
          = swapPairs (done ++ [a, b]) ++ tl := by
        rw [List.set_append_right _ _ (by omega), List.set_append_right _ _ (by omega),
          swapPairs_append done.length done [a, b] le_rfl hd]
        simp [hlen, swapPairs]
      have := ih t.length (by simp at hn; omega) (done ++ [a, b]) t tl le_rfl
        (by simp; omega) (by simp at ht; omega) (by simpa using hl)
      rw [if_pos hlt, ha, hb, hset]
      simpa using this

/-- The loop of `encodeToBuffer` for `'utf-16be'` exchanges the bytes of every
code unit of the little-endian buffer. -/
theorem encode_swapLoop_eq (str : JSString) :
    encodeToBuffer.swapLoop (bufferFromUtf16le str)
      (List.replicate (bufferFromUtf16le str).length 0) 0
      = swapPairs (bufferFromUtf16le str) := by
  have he : (bufferFromUtf16le str).length % 2 = 0 := by
    induction str with
    | nil => rfl
    | cons u r ih =>
      simp only [bufferFromUtf16le, List.flatMap_cons, List.length_append, List.length_cons,
        List.length_nil] at ih ⊢
      omega
  simpa [swapPairs] using encode_swapLoop_inv _ [] (bufferFromUtf16le str)
    (List.replicate (bufferFromUtf16le str).length 0) le_rfl rfl he (by simp)

theorem toStringUtf16le_append_single : ∀ (n : Nat) (l : Buffer) (v : Nat), l.length ≤ n →
    l.length % 2 = 0 → toStringUtf16le (l ++ [v]) = toStringUtf16le l := by
  intro n
  induction n using Nat.strong_induction_on with
  | _ n ih =>
    intro l v hn he
    match l with
    | [] => rfl
    | [a] => simp at he
    | a :: b :: t =>
      have h := ih t.length (by simp at hn; omega) t v le_rfl (by simp at he; omega)
      simp [toStringUtf16le, h]

theorem toStringUtf16le_swapPairs : ∀ (n : Nat) (l : Buffer), l.length ≤ n →
    toStringUtf16le (swapPairs l) = toStringUtf16be l := by
  intro n
  induction n using Nat.strong_induction_on with
  | _ n ih =>
    intro l hn
    match l with
    | [] => rfl
    | [a] => rfl
    | a :: b :: t =>
      have h := ih t.length (by simp at hn; omega) t le_rfl
      simp [toStringUtf16le, toStringUtf16be, swapPairs, h, Nat.add_comm]

theorem byteAt_cons_cons (x y : Nat) (l : Buffer) (k : Nat) :
    byteAt (x :: y :: l) (k + 2) = byteAt l k := by
  simp [byteAt]

theorem decode_swapLoop_done (buffer leBuffer : Buffer) (i : Nat) (h : buffer.length ≤ i) :
    decodeBuffer.swapLoop buffer leBuffer i = leBuffer := by
  rw [decodeBuffer.swapLoop, if_neg (by omega)]

theorem decode_swapLoop_inv (n : Nat) :
    ∀ (x y : Nat) (done todo tail : Buffer), todo.length ≤ n → done.length % 2 = 0 →
      tail.length = todo.length →
      toStringUtf16le
          (decodeBuffer.swapLoop (x :: y :: (done ++ todo)) (swapPairs done ++ tail)
            (done.length + 2))
        = toStringUtf16le (swapPairs (done ++ todo)) := by
  induction n using Nat.strong_induction_on with
  | _ n ih =>
    intro x y done todo tail hn hd hl
    have hlen := swapPairs_length done.length done le_rfl
    match todo, tail, hn, hl with
    | [], [], _, _ =>
      rw [decode_swapLoop_done _ _ _ (by simp)]
      simp
    | [a], [z], _, _ =>
      rw [decodeBuffer.swapLoop, if_pos (by simp),
        decode_swapLoop_done _ _ _ (by simp)]
      have e1 : done.length + 2 - 2 = done.length := by omega
      have e2 : done.length + 2 - 1 = done.length + 1 := by omega
      rw [e1, e2, List.set_append_right _ _ (by omega),
        List.set_eq_of_length_le (by simp; omega),
        swapPairs_append done.length done [a] le_rfl hd, hlen]
      simp only [Nat.sub_self, List.set_cons_zero]
      rw [toStringUtf16le_append_single _ (swapPairs done) _ le_rfl (by omega)]
      exact (toStringUtf16le_append_single _ (swapPairs done) a le_rfl (by omega)).symm
    | a :: b :: t, u :: v :: tl, hn, hl =>
      have ha : byteAt (x :: y :: (done ++ a :: b :: t)) (done.length + 2) = a := by
        rw [byteAt_cons_cons, byteAt_append_length]; rfl
      have hb : byteAt (x :: y :: (done ++ a :: b :: t)) (done.length + 2 + 1) = b := by
        rw [show done.length + 2 + 1 = (done.length + 1) + 2 by omega, byteAt_cons_cons,
          byteAt_append_add]; rfl
      have e1 : done.length + 2 - 2 = done.length := by omega
      have e2 : done.length + 2 - 1 = done.length + 1 := by omega
      have hset : ((swapPairs done ++ u :: v :: tl).set done.length b).set (done.length + 1) a
          = swapPairs (done ++ [a, b]) ++ tl := by
        rw [List.set_append_right _ _ (by omega), List.set_append_right _ _ (by omega),
          swapPairs_append done.length done [a, b] le_rfl hd]
        simp [hlen, swapPairs]
      have := ih t.length (by simp at hn; omega) x y (done ++ [a, b]) t tl le_rfl
        (by simp; omega) (by simpa using hl)
      rw [decodeBuffer.swapLoop, if_pos (by simp), ha, hb, e1, e2, hset]
      simpa using this

/-- The `'utf-16be'` branch of `decodeBuffer` on a buffer of at least two
bytes: the first two bytes are dropped and the rest is read as big-endian
UTF-16. -/
theorem decodeBuffer_utf16be (lib : Option Iconv) (x y : Nat) (r : Buffer) :
    decodeBuffer lib (x :: y :: r) .utf16be = .ok (toStringUtf16be r) := by
  have h := decode_swapLoop_inv r.length x y [] r (List.replicate r.length 0) le_rfl rfl
    (by simp)
  simp only [swapPairs, List.nil_append, List.length_nil, Nat.zero_add] at h
  simp only [decodeBuffer, bufferAlloc, List.length_cons]
  rw [if_neg (by omega)]
  have e : r.length + 1 + 1 - 2 = r.length := by omega
  simp only [e]
  rw [h, toStringUtf16le_swapPairs r.length r le_rfl]

/-- The `'utf-16be'` branch of `decodeBuffer` on a buffer of fewer than two
bytes: `Buffer.alloc` is called with a negative size and throws. -/
theorem decodeBuffer_utf16be_short (lib : Option Iconv) (b : Buffer) (h : b.length < 2) :
    decodeBuffer lib b .utf16be = .error .rangeError := by
  simp [decodeBuffer, bufferAlloc, h]

/-- C5: `encodeToBuffer` puts exactly `EF BB BF`, `FF FE`, `FE FF` in front
of the UTF-8 bytes, the little-endian code units and the byte-swapped code
units; `decodeBuffer` under the three labels drops the first 3, 2 and 2 bytes
and decodes only what follows. -/
theorem bom_framing (lib : Option Iconv) (s : JSString) (b r : Buffer) (x y : Nat) :
    encodeToBuffer lib s .utf8 = .ok (bufferFromUtf8 s) ∧
      encodeToBuffer lib s .utf8bom = .ok ([0xEF, 0xBB, 0xBF] ++ bufferFromUtf8 s) ∧
      encodeToBuffer lib s .utf16le = .ok ([0xFF, 0xFE] ++ bufferFromUtf16le s) ∧
      encodeToBuffer lib s .utf16be = .ok ([0xFE, 0xFF] ++ swapPairs (bufferFromUtf16le s)) ∧
      decodeBuffer lib b .utf8bom = .ok (toStringUtf8 (b.drop 3)) ∧
      decodeBuffer lib b .utf16le = .ok (toStringUtf16le (b.drop 2)) ∧
      decodeBuffer lib (x :: y :: r) .utf16be = .ok (toStringUtf16be r) := by
  refine ⟨rfl, rfl, rfl, ?_, rfl, rfl, decodeBuffer_utf16be lib x y r⟩
  simp only [encodeToBuffer, encode_swapLoop_eq]

/-! ### ASCII text through the encoders and decoders -/

theorem utf8Bytes_ascii (u : Nat) (h : u ≤ 0x7F) : utf8Bytes u = [u] := by
  rw [utf8Bytes, if_pos (by omega)]

theorem bufferFromUtf8_ascii (s : JSString) (h : ∀ u ∈ s, u ≤ 0x7F) : bufferFromUtf8 s = s := by
  induction s with
  | nil => rfl
  | cons u t ih =>
    have hu : u ≤ 0x7F := h u (List.mem_cons_self _ _)
    have ht := ih fun v hv => h v (List.mem_cons_of_mem _ hv)
    cases t with
    | nil =>
      rw [bufferFromUtf8, if_neg (by omega), utf8Bytes_ascii u hu]
    | cons v rest =>
      rw [bufferFromUtf8, if_neg (by omega), if_neg (by omega), utf8Bytes_ascii u hu, ht]
      rfl

theorem run_ascii (a : Buffer) (h : ∀ x ∈ a, x ≤ 0x7F) :
    Utf8Decoder.run Utf8Decoder.initial a = a := by
  induction a with
  | nil => rfl
  | cons x t ih =>
    have hx : x ≤ 0x7F := h x (List.mem_cons_self _ _)
    have hs : Utf8Decoder.step Utf8Decoder.initial x = ([x], Utf8Decoder.initial) := by
      simp [Utf8Decoder.step, Utf8Decoder.initial, Utf8Decoder.lead, hx]
    rw [Utf8Decoder.run, hs]
    simp only [List.singleton_append]
    rw [ih fun v hv => h v (List.mem_cons_of_mem _ hv)]

theorem flatMap_utf16Units (a : List Nat) (h : ∀ x ∈ a, x < 0x10000) :
    a.flatMap utf16Units = a := by
  induction a with
  | nil => rfl
  | cons x t ih =>
    have hx : x < 0x10000 := h x (List.mem_cons_self _ _)
    rw [List.flatMap_cons, ih fun v hv => h v (List.mem_cons_of_mem _ hv), utf16Units,
      if_pos hx]
    rfl

/-- `toString('utf8')` on ASCII bytes is the same sequence, as code units. -/
theorem toStringUtf8_ascii (a : Buffer) (h : ∀ x ∈ a, x ≤ 0x7F) : toStringUtf8 a = a := by
  rw [toStringUtf8, run_ascii a h]
  exact flatMap_utf16Units a fun x hx => by have := h x hx; omega

theorem toStringUtf16le_bufferFromUtf16le (s : JSString) (h : ∀ u ∈ s, u < 65536) :
    toStringUtf16le (bufferFromUtf16le s) = s := by
  induction s with
  | nil => rfl
  | cons u t ih =>
    have hu : u < 65536 := h u (List.mem_cons_self _ _)
    have ht := ih fun v hv => h v (List.mem_cons_of_mem _ hv)
    simp only [bufferFromUtf16le, List.flatMap_cons] at ht ⊢
    simp only [List.cons_append, List.nil_append, toStringUtf16le, ht]
    congr 1
    omega

theorem toStringUtf16be_swapPairs (s : JSString) (h : ∀ u ∈ s, u < 65536) :
    toStringUtf16be (swapPairs (bufferFromUtf16le s)) = s := by
  induction s with
  | nil => rfl
  | cons u t ih =>
    have hu : u < 65536 := h u (List.mem_cons_self _ _)
    have ht := ih fun v hv => h v (List.mem_cons_of_mem _ hv)
    simp only [bufferFromUtf16le, List.flatMap_cons] at ht ⊢
    simp only [List.cons_append, List.nil_append, swapPairs, toStringUtf16be, ht]
    congr 1
    omega

/-- C4, as stated, fails: `gbk` is a supported target, `hi` is ASCII text,
and with no codec library `encodeToBuffer` throws, so there is nothing to
decode back. -/
theorem roundTrip_gbk_counterexample :
    Encoding.gbk ∈ SUPPORTED_ENCODINGS ∧ (∀ u ∈ [0x68, 0x69], u ≤ 0x7F) ∧
      encodeToBuffer none [0x68, 0x69] .gbk = .error .moduleNotFound ∧
      roundTrip none [0x68, 0x69] .gbk ≠ .ok [0x68, 0x69] := by
  refine ⟨by decide, by decide, rfl, ?_⟩
  simp [roundTrip, encodeToBuffer]

theorem asciiOnlyIconv_asciiUnchanged : asciiOnlyIconv.asciiUnchanged := by
  intro a ha
  have h : ∀ (c : Nat) (l : List Nat), (∀ x ∈ l, x ≤ 0x7F) →
      l.map (fun x => if x < 0x80 then x else c) = l := by
    intro c l
    induction l with
    | nil => intro _; rfl
    | cons x t ih =>
      intro hl
      have hx : x < 0x80 := by have := hl x (List.mem_cons_self _ _); omega
      rw [List.map_cons, if_pos hx, ih fun v hv => hl v (List.mem_cons_of_mem _ hv)]
  exact ⟨h 0x3F a ha, h 0xFFFD a ha⟩

/-- C4 amended: for ASCII text and each of the targets `utf-8`, `utf-8-bom`,
`utf-16le`, `utf-16be`, encoding then decoding gives the text back, with or
without the codec library; for `gbk` it does so when the codec library is
present (a library that leaves ASCII unchanged, as GBK does), and with no
library the encoding throws. -/
theorem roundTrip_ascii (lib : Option Iconv) (s : JSString) (t : Encoding)
    (hs : ∀ u ∈ s, u ≤ 0x7F) :
    (t ∈ [Encoding.utf8, Encoding.utf8bom, Encoding.utf16le, Encoding.utf16be] →
        roundTrip lib s t = .ok s) ∧
      roundTrip none s .gbk = .error .moduleNotFound ∧
      ∀ iconv : Iconv, iconv.asciiUnchanged → roundTrip (some iconv) s .gbk = .ok s := by
  have h8 : toStringUtf8 (bufferFromUtf8 s) = s := by
    rw [bufferFromUtf8_ascii s hs, toStringUtf8_ascii s hs]
  have h16 : ∀ u ∈ s, u < 65536 := fun u hu => by have := hs u hu; omega
  refine ⟨?_, rfl, ?_⟩
  · intro ht
    simp only [List.mem_cons, List.mem_singleton, List.not_mem_nil, or_false] at ht
    rcases ht with rfl | rfl | rfl | rfl
    · simp only [roundTrip, encodeToBuffer, decodeBuffer, h8]
    · simp only [roundTrip, encodeToBuffer, decodeBuffer]
      rw [show List.drop 3 ([0xEF, 0xBB, 0xBF] ++ bufferFromUtf8 s) = bufferFromUtf8 s from rfl,
        h8]
    · simp only [roundTrip, encodeToBuffer, decodeBuffer]
      rw [show List.drop 2 ([0xFF, 0xFE] ++ bufferFromUtf16le s) = bufferFromUtf16le s from rfl,
        toStringUtf16le_bufferFromUtf16le s h16]
    · simp only [roundTrip, encodeToBuffer, encode_swapLoop_eq]
      rw [show [0xFE, 0xFF] ++ swapPairs (bufferFromUtf16le s)
          = 0xFE :: 0xFF :: swapPairs (bufferFromUtf16le s) from rfl,
        decodeBuffer_utf16be, toStringUtf16be_swapPairs s h16]
  · intro iconv hlib
    obtain ⟨he, hd⟩ := hlib s hs
    simp only [roundTrip, encodeToBuffer, decodeBuffer, he, hd]

/-- C4 amended at the text `hi`: the target `utf-16be` with no codec library,
and the target `gbk` with a library that leaves ASCII unchanged. -/
theorem roundTrip_ascii_witness :
    (∀ u ∈ [0x68, 0x69], u ≤ 0x7F) ∧
      roundTrip none [0x68, 0x69] .utf16be = .ok [0x68, 0x69] ∧
      roundTrip (some asciiOnlyIconv) [0x68, 0x69] .gbk = .ok [0x68, 0x69] :=
  ⟨by decide, (roundTrip_ascii none [0x68, 0x69] .utf16be (by decide)).1 (by decide),
    (roundTrip_ascii none [0x68, 0x69] .gbk (by decide)).2.2 asciiOnlyIconv
      asciiOnlyIconv_asciiUnchanged⟩

theorem detectEncoding_utf16le_mark (r : Buffer) :
    detectEncoding (0xFF :: 0xFE :: r) = .utf16le := by
  rw [detectEncoding_scan, if_pos]
  exact ⟨by simp, by simp [List.prefix_cons_inj]⟩

theorem detectEncoding_utf16be_mark (r : Buffer) :
    detectEncoding (0xFE :: 0xFF :: r) = .utf16be := by
  rw [detectEncoding_scan, if_neg, if_pos]
  · exact ⟨by simp, by simp [List.prefix_cons_inj]⟩
  · simp [List.prefix_cons_inj]

theorem detectEncoding_utf8bom_mark (r : Buffer) :
    detectEncoding (0xEF :: 0xBB :: 0xBF :: r) = .utf8bom := by
  rw [detectEncoding_scan, if_neg, if_neg, if_pos]
  · exact ⟨by simp, by simp [List.prefix_cons_inj]⟩
  · simp [List.prefix_cons_inj]
  · simp [List.prefix_cons_inj]

/-- C6: on a file `EF BB BF` followed by ASCII bytes `a`, with target
`utf-16le`, the loop body detects `utf-8-bom` and writes `FF FE` followed by
`x 00` for every byte `x` of `a`. -/
theorem utf8bom_to_utf16le (lib : Option Iconv) (a : Buffer) (h : ∀ x ∈ a, x ≤ 0x7F) :
    detectEncoding ([0xEF, 0xBB, 0xBF] ++ a) = .utf8bom ∧
      processFile lib .utf16le ([0xEF, 0xBB, 0xBF] ++ a) =
        (.converted, [0xFF, 0xFE] ++ a.flatMap fun x => [x, 0]) := by
  have hle : bufferFromUtf16le a = a.flatMap fun x => [x, 0] := by
    unfold bufferFromUtf16le
    induction a with
    | nil => rfl
    | cons x t ih =>
      have hx : x ≤ 0x7F := h x (List.mem_cons_self _ _)
      rw [List.flatMap_cons, List.flatMap_cons, ih fun v hv => h v (List.mem_cons_of_mem _ hv)]
      have e1 : x % 256 = x := by omega
      have e2 : x / 256 % 256 = 0 := by omega
      rw [e1, e2]
  have hd : detectEncoding ([0xEF, 0xBB, 0xBF] ++ a) = .utf8bom := detectEncoding_utf8bom_mark a
  refine ⟨hd, ?_⟩
  rw [processFile, hd, if_neg (by decide)]
  simp only [decodeBuffer]
  rw [show List.drop 3 ([0xEF, 0xBB, 0xBF] ++ a) = a from rfl, toStringUtf8_ascii a h]
  simp only [encodeToBuffer, hle]

/-- C6 at `a = 68 69`: the file `EF BB BF 68 69` becomes `FF FE 68 00 69 00`. -/
theorem utf8bom_to_utf16le_witness :
    (∀ x ∈ [0x68, 0x69], x ≤ 0x7F) ∧
      processFile none .utf16le [0xEF, 0xBB, 0xBF, 0x68, 0x69] =
        (.converted, [0xFF, 0xFE, 0x68, 0x00, 0x69, 0x00]) :=
  ⟨by decide, (utf8bom_to_utf16le none [0x68, 0x69] (by decide)).2⟩

/-! ### A second run of the batch -/

/-- The bytes `Buffer.from(str, 'utf8')` writes for a string of 16-bit code
units are accepted by the scan of `isValidUTF8`. -/
theorem scanUTF8_bufferFromUtf8 (n : Nat) :
    ∀ s : JSString, s.length ≤ n → (∀ u ∈ s, u < 65536) →
      scanUTF8 0 (bufferFromUtf8 s) = true := by
  induction n using Nat.strong_induction_on with
  | _ n ih =>
    intro s hn hs
    have hrep : scanUTF8 0 [0xEF, 0xBF, 0xBD] = true := by decide
    match s, hn, hs with
    | [], _, _ => rfl
    | [u], _, hs =>
      have hu : u < 65536 := hs u (List.mem_cons_self _ _)
      rw [bufferFromUtf8]
      split_ifs
      · exact hrep
      · exact scanUTF8_utf8Bytes u (by omega)
    | u :: v :: rest, hn, hs =>
      have hu : u < 65536 := hs u (List.mem_cons_self _ _)
      have hv : v < 65536 := hs v (List.mem_cons_of_mem _ (List.mem_cons_self _ _))
      have h1 := ih (v :: rest).length (by simp at hn ⊢; omega) (v :: rest) le_rfl
        fun x hx => hs x (List.mem_cons_of_mem _ hx)
      have h2 := ih rest.length (by simp at hn; omega) rest le_rfl
        fun x hx => hs x (List.mem_cons_of_mem _ (List.mem_cons_of_mem _ hx))
      rw [bufferFromUtf8]
      split_ifs with a b c
      · rw [scanUTF8_append _ _ 0 (scanUTF8_utf8Bytes _ (by omega))]
        exact h2
      · rw [scanUTF8_append _ _ 0 hrep]
        exact h1
      · rw [scanUTF8_append _ _ 0 hrep]
        exact h1
      · rw [scanUTF8_append _ _ 0 (scanUTF8_utf8Bytes u (by omega))]
        exact h1

/-- On a buffer the scan of `isValidUTF8` accepts, `detectEncoding` answers
`utf-8-bom`, `ascii` or `utf-8`. -/
theorem detectEncoding_of_scan (out : Buffer) (h : scanUTF8 0 out = true) :
    detectEncoding out =
      if [0xEF, 0xBB, 0xBF] <+: out then .utf8bom
      else if ∀ x ∈ out, x ≤ 0x7F then .ascii
      else .utf8 := by
  have h1 : ¬ (out.length ≥ 2 ∧ [0xFF, 0xFE] <+: out) := by
    rintro ⟨-, r, rfl⟩
    rw [show [0xFF, 0xFE] ++ r = 0xFF :: (0xFE :: r) from rfl, scanUTF8, if_neg (by decide),
      if_neg (by decide), if_neg (by decide), if_neg (by decide)] at h
    exact Bool.false_ne_true h
  have h2 : ¬ (out.length ≥ 2 ∧ [0xFE, 0xFF] <+: out) := by
    rintro ⟨-, r, rfl⟩
    rw [show [0xFE, 0xFF] ++ r = 0xFE :: (0xFF :: r) from rfl, scanUTF8, if_neg (by decide),
      if_neg (by decide), if_neg (by decide), if_neg (by decide)] at h
    exact Bool.false_ne_true h
  have h3 : (out.length ≥ 3 ∧ [0xEF, 0xBB, 0xBF] <+: out) ↔ [0xEF, 0xBB, 0xBF] <+: out := by
    constructor
    · exact fun a => a.2
    · intro a
      exact ⟨by simpa using a.length_le, a⟩
  rw [detectEncoding_scan, if_neg h1, if_neg h2, h]
  simp only [h3, if_true]

theorem processFile_skipped (lib : Option Iconv) (t : Encoding) (b : Buffer)
    (h : detectEncoding b = t) : processFile lib t b = (.skipped, b) := by
  rw [processFile, if_pos h]

theorem processFile_skipped_iff (lib : Option Iconv) (t : Encoding) (b out : Buffer) :
    processFile lib t b = (.skipped, out) ↔ detectEncoding b = t ∧ out = b := by
  unfold processFile
  split_ifs with h
  · simp [h, eq_comm]
  · simp only [h, false_and, iff_false]
    cases decodeBuffer lib b (detectEncoding b) with
    | error e => simp
    | ok str =>
      cases he : encodeToBuffer lib str t with
      | error e => simp [he]
      | ok o => simp [he]

theorem processFile_converted (lib : Option Iconv) (t : Encoding) (b out : Buffer)
    (h : processFile lib t b = (.converted, out)) :
    detectEncoding b ≠ t ∧ ∃ str, decodeBuffer lib b (detectEncoding b) = .ok str ∧
      encodeToBuffer lib str t = .ok out := by
  unfold processFile at h
  split_ifs at h with h0
  · simp at h
  · refine ⟨h0, ?_⟩
    cases hd : decodeBuffer lib b (detectEncoding b) with
    | error e => simp [hd] at h
    | ok str =>
      cases he : encodeToBuffer lib str t with
      | error e => simp [hd, he] at h
      | ok o =>
        simp [hd, he] at h
        subst h
        exact ⟨str, rfl, he⟩

/-! ### Every decoder returns 16-bit code units -/

theorem land_low (x k : Nat) : x &&& (2 ^ k - 1) = x % 2 ^ k :=
  Nat.and_pow_two_sub_one_eq_mod x k

theorem shift6_or (cp byte : Nat) : (cp <<< 6) ||| (byte &&& 0x3F) = 64 * cp + byte % 64 := by
  have hm : byte &&& 0x3F = byte % 64 := land_low byte 6
  rw [hm, Nat.shiftLeft_eq, Nat.mul_comm]
  exact (Nat.mul_add_lt_is_or (show byte % 64 < 2 ^ 6 from Nat.mod_lt _ (by norm_num)) cp).symm

theorem lead_inv (byte : Nat) :
    (∀ c ∈ (Utf8Decoder.lead byte).1, c < 0x110000) ∧ (Utf8Decoder.lead byte).2.Inv := by
  have m5 : byte &&& 0x1F = byte % 32 := land_low byte 5
  have m4 : byte &&& 0xF = byte % 16 := land_low byte 4
  have m3 : byte &&& 0x7 = byte % 8 := land_low byte 3
  unfold Utf8Decoder.lead
  by_cases h1 : byte ≤ 0x7F
  · rw [if_pos h1]
    refine ⟨?_, Or.inl rfl⟩
    intro c hc
    simp only [List.mem_singleton] at hc
    omega
  rw [if_neg h1]
  by_cases h2 : 0xC2 ≤ byte ∧ byte ≤ 0xDF
  · rw [if_pos h2]
    refine ⟨by simp, Or.inr (Or.inl ⟨rfl, rfl, ?_⟩)⟩
    show byte &&& 0x1F < 32
    omega
  rw [if_neg h2]
  by_cases h3 : 0xE0 ≤ byte ∧ byte ≤ 0xEF
  · rw [if_pos h3]
    refine ⟨by simp, Or.inr (Or.inr (Or.inl ⟨rfl, rfl, ?_⟩))⟩
    show byte &&& 0xF < 16
    omega
  rw [if_neg h3]
  by_cases h4 : 0xF0 ≤ byte ∧ byte ≤ 0xF4
  · rw [if_pos h4]
    refine ⟨by simp, Or.inr (Or.inr (Or.inr (Or.inr (Or.inl ⟨rfl, rfl, ?_, ?_⟩))))⟩
    · show byte &&& 0x7 ≤ 4
      omega
    · show byte &&& 0x7 = 4 →
        (if byte = 0xF0 then 0x90 else 0x80) = 0x80 ∧ (if byte = 0xF4 then 0x8F else 0xBF) = 0x8F
      intro h
      have hb : byte = 0xF4 := by omega
      subst hb
      decide
  rw [if_neg h4]
  refine ⟨?_, Or.inl rfl⟩
  intro c hc
  simp only [List.mem_singleton] at hc
  omega

theorem step_inv (st : Utf8Decoder) (byte : Nat) (h : st.Inv) :
    (∀ c ∈ (st.step byte).1, c < 0x110000) ∧ (st.step byte).2.Inv := by
  obtain ⟨l1, l2⟩ := lead_inv byte
  have e := shift6_or st.codePoint byte
  have hm : byte % 64 < 64 := Nat.mod_lt _ (by norm_num)
  unfold Utf8Decoder.step
  split_ifs with h0 h1 h2
  · exact ⟨l1, l2⟩
  · refine ⟨?_, l2⟩
    intro c hc
    simp only [List.mem_cons] at hc
    rcases hc with rfl | hc
    · norm_num
    · exact l1 c hc
  · refine ⟨by simp, ?_⟩
    unfold Utf8Decoder.Inv at h ⊢
    simp only [e]
    push_neg at h1
    rcases h with a | ⟨a, b, c⟩ | ⟨a, b, c⟩ | ⟨a, b, c⟩ | ⟨a, b, c, d⟩ | ⟨a, b, c⟩ | ⟨a, b, c⟩
    · exact absurd a h0
    · omega
    · right; right; right; left; exact ⟨a, by omega, by omega⟩
    · omega
    · right; right; right; right; right; left
      refine ⟨a, by omega, ?_⟩
      by_cases hc4 : st.codePoint = 4
      · obtain ⟨d1, d2⟩ := d hc4
        omega
      · omega
    · right; right; right; right; right; right; exact ⟨a, by omega, by omega⟩
    · omega
  · refine ⟨?_, Or.inl rfl⟩
    intro c hc
    simp only [List.mem_singleton] at hc
    rw [e] at hc
    unfold Utf8Decoder.Inv at h
    push_neg at h2
    rcases h with a | ⟨a, b, c'⟩ | ⟨a, b, c'⟩ | ⟨a, b, c'⟩ | ⟨a, b, c', d⟩ | ⟨a, b, c'⟩ |
      ⟨a, b, c'⟩
    · exact absurd a h0
    all_goals omega

theorem run_bound : ∀ (b : Buffer) (st : Utf8Decoder), st.Inv →
    ∀ c ∈ Utf8Decoder.run st b, c < 0x110000 := by
  intro b
  induction b with
  | nil =>
    intro st _ c hc
    rw [Utf8Decoder.run] at hc
    split_ifs at hc
    · simp only [List.mem_singleton] at hc
      omega
    · simp at hc
  | cons byte rest ih =>
    intro st h c hc
    obtain ⟨s1, s2⟩ := step_inv st byte h
    rw [Utf8Decoder.run, List.mem_append] at hc
    rcases hc with hc | hc
    · exact s1 c hc
    · exact ih _ s2 c hc

/-- `buffer.toString('utf8')` is a string of 16-bit code units. -/
theorem toStringUtf8_units (b : Buffer) : ∀ u ∈ toStringUtf8 b, u < 65536 := by
  intro u hu
  rw [toStringUtf8, List.mem_flatMap] at hu
  obtain ⟨c, hc, hu⟩ := hu
  have hb := run_bound b Utf8Decoder.initial (Or.inl rfl) c hc
  unfold utf16Units at hu
  split_ifs at hu with h
  · simp only [List.mem_singleton] at hu
    omega
  · simp only [List.mem_cons, List.mem_singleton, List.not_mem_nil, or_false] at hu
    omega

theorem toStringAscii_units (b : Buffer) : ∀ u ∈ toStringAscii b, u < 65536 := by
  intro u hu
  rw [toStringAscii, List.mem_map] at hu
  obtain ⟨x, -, rfl⟩ := hu
  have : x &&& 0x7F ≤ 0x7F := Nat.and_le_right
  omega

theorem toStringUtf16le_units : ∀ (n : Nat) (b : Buffer), b.length ≤ n → (∀ x ∈ b, x < 256) →
    ∀ u ∈ toStringUtf16le b, u < 65536 := by
  intro n
  induction n using Nat.strong_induction_on with
  | _ n ih =>
    intro b hn hb u hu
    match b, hn, hb, hu with
    | [], _, _, hu => simp [toStringUtf16le] at hu
    | [a], _, _, hu => simp [toStringUtf16le] at hu
    | lo :: hi :: rest, hn, hb, hu =>
      have h1 : lo < 256 := hb lo (List.mem_cons_self _ _)
      have h2 : hi < 256 := hb hi (List.mem_cons_of_mem _ (List.mem_cons_self _ _))
      rw [toStringUtf16le, List.mem_cons] at hu
      rcases hu with rfl | hu
      · omega
      · exact ih rest.length (by simp at hn; omega) rest le_rfl
          (fun x hx => hb x (List.mem_cons_of_mem _ (List.mem_cons_of_mem _ hx))) u hu

theorem toStringUtf16be_units : ∀ (n : Nat) (b : Buffer), b.length ≤ n → (∀ x ∈ b, x < 256) →
    ∀ u ∈ toStringUtf16be b, u < 65536 := by
  intro n
  induction n using Nat.strong_induction_on with
  | _ n ih =>
    intro b hn hb u hu
    match b, hn, hb, hu with
    | [], _, _, hu => simp [toStringUtf16be] at hu
    | [a], _, _, hu => simp [toStringUtf16be] at hu
    | hi :: lo :: rest, hn, hb, hu =>
      have h1 : hi < 256 := hb hi (List.mem_cons_self _ _)
      have h2 : lo < 256 := hb lo (List.mem_cons_of_mem _ (List.mem_cons_self _ _))
      rw [toStringUtf16be, List.mem_cons] at hu
      rcases hu with rfl | hu
      · omega
      · exact ih rest.length (by simp at hn; omega) rest le_rfl
          (fun x hx => hb x (List.mem_cons_of_mem _ (List.mem_cons_of_mem _ hx))) u hu

theorem fromCharCode_units (n : Nat) : ∀ u ∈ fromCharCode n, u < 65536 := by
  intro u hu
  rw [fromCharCode, List.mem_singleton] at hu
  omega

theorem append_units (r t : JSString) (hr : ∀ u ∈ r, u < 65536) (ht : ∀ u ∈ t, u < 65536) :
    ∀ u ∈ r ++ t, u < 65536 := by
  intro u hu
  rcases List.mem_append.1 hu with h | h
  · exact hr u h
  · exact ht u h

theorem decode_loop_units (n : Nat) :
    ∀ (lib : Option Iconv) (buffer : Buffer) (i : Nat) (r : JSString),
      buffer.length - i ≤ n → (∀ u ∈ r, u < 65536) →
      ∀ u ∈ GBKDecoder.decode.loop lib buffer i r, u < 65536 := by
  induction n using Nat.strong_induction_on with
  | _ n ih =>
    intro lib buffer i r hn hr
    have hrep : ∀ u ∈ [0xFFFD], u < 65536 := by decide
    rw [GBKDecoder.decode.loop]
    by_cases h : i < buffer.length
    · rw [if_pos h]
      have s1 := fun r' hr' =>
        ih (buffer.length - (i + 1)) (by omega) lib buffer (i + 1) r' le_rfl hr'
      have s2 := fun r' hr' =>
        ih (buffer.length - (i + 2)) (by omega) lib buffer (i + 2) r' le_rfl hr'
      by_cases ha : byteAt buffer i < 0x80
      · rw [if_pos ha]
        exact s1 _ (append_units _ _ hr (fromCharCode_units _))
      · rw [if_neg ha]
        by_cases hl : i + 1 < buffer.length
        · rw [if_pos hl]
          cases GBKDecoder.gbkToUnicode lib
              ((byteAt buffer i <<< 8) ||| byteAt buffer (i + 1)) with
          | none => exact s1 _ (append_units _ _ hr hrep)
          | some unicode => exact s2 _ (append_units _ _ hr (fromCharCode_units _))
        · rw [if_neg hl]
          exact s1 _ (append_units _ _ hr hrep)
    · rw [if_neg h]
      exact hr

/-- Whatever the label, `decodeBuffer` on a buffer of bytes returns a string of
16-bit code units. -/
theorem decodeBuffer_units (lib : Option Iconv) (b : Buffer) (e : Encoding) (str : JSString)
    (hb : ∀ x ∈ b, x < 256) (h : decodeBuffer lib b e = .ok str) : ∀ u ∈ str, u < 65536 := by
  cases e with
  | utf8 =>
    simp only [decodeBuffer, Except.ok.injEq] at h
    rw [← h]; exact toStringUtf8_units b
  | utf8bom =>
    simp only [decodeBuffer, Except.ok.injEq] at h
    rw [← h]; exact toStringUtf8_units _
  | ascii =>
    simp only [decodeBuffer, Except.ok.injEq] at h
    rw [← h]; exact toStringAscii_units b
  | utf16le =>
    simp only [decodeBuffer, Except.ok.injEq] at h
    rw [← h]
    exact toStringUtf16le_units _ _ le_rfl fun x hx => hb x (List.mem_of_mem_drop hx)
  | utf16be =>
    match b, hb, h with
    | [], _, h => simp [decodeBuffer, bufferAlloc] at h
    | [a], _, h => simp [decodeBuffer, bufferAlloc] at h
    | x :: y :: r, hb, h =>
      rw [decodeBuffer_utf16be, Except.ok.injEq] at h
      rw [← h]
      exact toStringUtf16be_units _ _ le_rfl
        fun v hv => hb v (List.mem_cons_of_mem _ (List.mem_cons_of_mem _ hv))
  | gbk =>
    cases lib with
    | none =>
      simp only [decodeBuffer, Except.ok.injEq] at h
      rw [← h]
      exact decode_loop_units _ none b 0 [] le_rfl (by simp)
    | some iconv =>
      simp only [decodeBuffer, Except.ok.injEq] at h
      rw [← h]
      exact iconv.decode_units b

/-! ### C3: the second run -/

/-- The label `gbk` is the one left when no mark, no all-ASCII content and no
UTF-8 shape is found. -/
theorem detectEncoding_gbk_iff (out : Buffer) :
    detectEncoding out = .gbk ↔
      ¬ [0xFF, 0xFE] <+: out ∧ ¬ [0xFE, 0xFF] <+: out ∧ ¬ [0xEF, 0xBB, 0xBF] <+: out ∧
        (∃ x ∈ out, 0x7F < x) ∧ isValidUTF8 out = false := by
  have p2 : ∀ x y : Nat, (out.length ≥ 2 ∧ [x, y] <+: out) ↔ [x, y] <+: out :=
    fun x y => ⟨fun a => a.2, fun a => ⟨by simpa using a.length_le, a⟩⟩
  have p3 : (out.length ≥ 3 ∧ [0xEF, 0xBB, 0xBF] <+: out) ↔ [0xEF, 0xBB, 0xBF] <+: out :=
    ⟨fun a => a.2, fun a => ⟨by simpa using a.length_le, a⟩⟩
  rw [detectEncoding_eq, detectSpec]
  simp only [p2, p3]
  by_cases h1 : [0xFF, 0xFE] <+: out
  · rw [if_pos h1]; simp [h1]
  rw [if_neg h1]
  by_cases h2 : [0xFE, 0xFF] <+: out
  · rw [if_pos h2]; simp [h2]
  rw [if_neg h2]
  by_cases h3 : [0xEF, 0xBB, 0xBF] <+: out
  · rw [if_pos h3]; simp [h3]
  rw [if_neg h3]
  by_cases h4 : ∀ x ∈ out, x ≤ 0x7F
  · rw [if_pos h4]
    constructor
    · intro h; cases h
    · rintro ⟨-, -, -, ⟨x, hx, hlt⟩, -⟩
      have := h4 x hx
      omega
  rw [if_neg h4]
  have h4' : ∃ x ∈ out, 0x7F < x := by
    push_neg at h4
    exact h4
  by_cases h5 : isValidUTF8 out = true
  · rw [if_pos h5]
    constructor
    · intro h; cases h
    · rintro ⟨-, -, -, -, hv⟩
      rw [h5] at hv
      cases hv
  · rw [if_neg h5]
    exact ⟨fun _ => ⟨h1, h2, h3, h4', by simpa using h5⟩, fun _ => rfl⟩

/-- The loop body on a file that begins with `EF BB BF`, target `utf-8`: the
file is converted, the mark dropped and the text behind it written as UTF-8. -/
theorem processFile_utf8_of_mark (lib : Option Iconv) (out : Buffer)
    (h : [0xEF, 0xBB, 0xBF] <+: out) :
    detectEncoding out = .utf8bom ∧
      processFile lib .utf8 out = (.converted, bufferFromUtf8 (toStringUtf8 (out.drop 3))) := by
  obtain ⟨r, rfl⟩ := h
  have hd : detectEncoding ([0xEF, 0xBB, 0xBF] ++ r) = .utf8bom := detectEncoding_utf8bom_mark r
  refine ⟨hd, ?_⟩
  rw [processFile, hd, if_neg (by decide)]
  simp only [decodeBuffer, encodeToBuffer]

/-- C3, as stated, fails, with target `utf-8` in both cases. The ASCII file
`hi` is converted in the first run (its label `ascii` is not the target), the
bytes written are again `hi`, labelled `ascii`, and the second run converts the
file again instead of skipping it. The `utf-16le` file of the text U+FEFF
U+00E9 is converted to `EF BB BF C3 A9`, which is labelled `utf-8-bom`, and the
second run converts it again, to `C3 A9`. -/
theorem second_run_counterexample :
    Encoding.utf8 ∈ SUPPORTED_ENCODINGS ∧
      processFile none .utf8 [0x68, 0x69] = (.converted, [0x68, 0x69]) ∧
      detectEncoding [0x68, 0x69] = .ascii ∧
      detectEncoding [0x68, 0x69] ≠ .utf8 ∧
      (processFile none .utf8 [0x68, 0x69]).1 ≠ .skipped ∧
      processFile none .utf8 [0xFF, 0xFE, 0xFF, 0xFE, 0xE9, 0x00] =
        (.converted, [0xEF, 0xBB, 0xBF, 0xC3, 0xA9]) ∧
      detectEncoding [0xEF, 0xBB, 0xBF, 0xC3, 0xA9] = .utf8bom ∧
      processFile none .utf8 [0xEF, 0xBB, 0xBF, 0xC3, 0xA9] = (.converted, [0xC3, 0xA9]) := by
  have hd : detectEncoding [0x68, 0x69] = .ascii := by
    rw [detectEncoding_scan]; decide
  have hp : processFile none .utf8 [0x68, 0x69] = (.converted, [0x68, 0x69]) := by
    rw [processFile, hd, if_neg (by decide)]
    rfl
  have hd2 : detectEncoding [0xFF, 0xFE, 0xFF, 0xFE, 0xE9, 0x00] = .utf16le :=
    detectEncoding_utf16le_mark _
  have hp2 : processFile none .utf8 [0xFF, 0xFE, 0xFF, 0xFE, 0xE9, 0x00] =
      (.converted, [0xEF, 0xBB, 0xBF, 0xC3, 0xA9]) := by
    rw [processFile, hd2, if_neg (by decide)]
    rfl
  obtain ⟨hd3, hp3⟩ := processFile_utf8_of_mark none [0xEF, 0xBB, 0xBF, 0xC3, 0xA9]
    ⟨[0xC3, 0xA9], rfl⟩
  refine ⟨by decide, hp, hd, ?_, ?_, hp2, hd3, ?_⟩
  · rw [hd]; decide
  · rw [hp]; decide
  · rw [hp3]; rfl

/-- C3 amended: for the targets `utf-8-bom`, `utf-16le` and `utf-16be` a file
converted in the first run is labelled with the target afterwards and is
skipped by a second run; a file skipped in the first run is skipped again.
For the target `utf-8` and written bytes that hold a byte above `0x7F`: bytes
that do not begin with `EF BB BF` are labelled `utf-8` and the second run skips
the file; bytes that begin with `EF BB BF` are labelled `utf-8-bom` and the
second run converts the file again, writing the UTF-8 bytes of the text behind
the mark. For the target `gbk` with the codec library and written bytes that
hold a byte above `0x7F`, the second run skips the file exactly when the bytes
begin with none of `FF FE`, `FE FF`, `EF BB BF` and `isValidUTF8` rejects them;
with no codec library no file is converted to `gbk`. -/
theorem second_run (lib : Option Iconv) (t : Encoding) (b out : Buffer) :
    (t ∈ [Encoding.utf8bom, Encoding.utf16le, Encoding.utf16be] →
        processFile lib t b = (.converted, out) →
        detectEncoding out = t ∧ processFile lib t out = (.skipped, out)) ∧
      (processFile lib t b = (.skipped, out) → processFile lib t out = (.skipped, out)) ∧
      ((∀ x ∈ b, x < 256) → processFile lib .utf8 b = (.converted, out) →
        (∃ x ∈ out, 0x7F < x) →
        (¬ [0xEF, 0xBB, 0xBF] <+: out →
          detectEncoding out = .utf8 ∧ processFile lib .utf8 out = (.skipped, out)) ∧
        ([0xEF, 0xBB, 0xBF] <+: out →
          detectEncoding out = .utf8bom ∧
          processFile lib .utf8 out =
            (.converted, bufferFromUtf8 (toStringUtf8 (out.drop 3))))) ∧
      (∀ iconv : Iconv, processFile (some iconv) .gbk b = (.converted, out) →
        (∃ x ∈ out, 0x7F < x) →
        (processFile (some iconv) .gbk out = (.skipped, out) ↔
          ¬ [0xFF, 0xFE] <+: out ∧ ¬ [0xFE, 0xFF] <+: out ∧ ¬ [0xEF, 0xBB, 0xBF] <+: out ∧
            isValidUTF8 out = false)) ∧
      (processFile none .gbk b).1 ≠ .converted := by
  refine ⟨?_, ?_, ?_, ?_, ?_⟩
  · intro ht h
    obtain ⟨-, str, -, he⟩ := processFile_converted lib t b out h
    have hd : detectEncoding out = t := by
      simp only [List.mem_cons, List.mem_singleton, List.not_mem_nil, or_false] at ht
      rcases ht with rfl | rfl | rfl
      · simp only [encodeToBuffer, Except.ok.injEq] at he
        rw [← he]; exact detectEncoding_utf8bom_mark _
      · simp only [encodeToBuffer, Except.ok.injEq] at he
        rw [← he]; exact detectEncoding_utf16le_mark _
      · simp only [encodeToBuffer, Except.ok.injEq] at he
        rw [← he]; exact detectEncoding_utf16be_mark _
    exact ⟨hd, processFile_skipped lib t out hd⟩
  · intro h
    obtain ⟨hd, rfl⟩ := (processFile_skipped_iff lib t b out).1 h
    exact processFile_skipped lib t out hd
  · intro hb h hne
    obtain ⟨-, str, hdec, he⟩ := processFile_converted lib .utf8 b out h
    have hstr := decodeBuffer_units lib b _ str hb hdec
    simp only [encodeToBuffer, Except.ok.injEq] at he
    have hscan : scanUTF8 0 out = true := by
      rw [← he]; exact scanUTF8_bufferFromUtf8 _ str le_rfl hstr
    have hd := detectEncoding_of_scan out hscan
    refine ⟨?_, processFile_utf8_of_mark lib out⟩
    intro hm
    have ha : ¬ ∀ x ∈ out, x ≤ 0x7F := by
      obtain ⟨x, hx, hlt⟩ := hne
      intro hall
      have := hall x hx
      omega
    rw [if_neg hm, if_neg ha] at hd
    exact ⟨hd, processFile_skipped lib .utf8 out hd⟩
  · intro iconv _ hne
    rw [processFile_skipped_iff, detectEncoding_gbk_iff]
    constructor
    · rintro ⟨⟨h1, h2, h3, -, h5⟩, -⟩
      exact ⟨h1, h2, h3, h5⟩
    · rintro ⟨h1, h2, h3, h5⟩
      exact ⟨⟨h1, h2, h3, hne, h5⟩, rfl⟩
  · unfold processFile
    split_ifs
    · simp
    · cases decodeBuffer none b (detectEncoding b) with
      | error e => simp
      | ok str => simp [encodeToBuffer]

/-- C3 amended on concrete files: the ASCII file `hi` converted to `utf-16le`
is skipped by a second run; the `utf-16le` file of U+00E9 converted to `utf-8`
gives `C3 A9`, labelled `utf-8` and skipped by a second run; the `utf-16le`
file of U+FEFF U+00E9 converted to `utf-8` gives `EF BB BF C3 A9`, labelled
`utf-8-bom` and converted again to `C3 A9`. -/
theorem second_run_witness :
    (processFile none .utf16le [0x68, 0x69] = (.converted, [0xFF, 0xFE, 0x68, 0x00, 0x69, 0x00]) ∧
      processFile none .utf16le [0xFF, 0xFE, 0x68, 0x00, 0x69, 0x00] =
        (.skipped, [0xFF, 0xFE, 0x68, 0x00, 0x69, 0x00])) ∧
      (processFile none .utf8 [0xFF, 0xFE, 0xE9, 0x00] = (.converted, [0xC3, 0xA9]) ∧
        detectEncoding [0xC3, 0xA9] = .utf8 ∧
        processFile none .utf8 [0xC3, 0xA9] = (.skipped, [0xC3, 0xA9])) ∧
      (processFile none .utf8 [0xFF, 0xFE, 0xFF, 0xFE, 0xE9, 0x00] =
          (.converted, [0xEF, 0xBB, 0xBF, 0xC3, 0xA9]) ∧
        detectEncoding [0xEF, 0xBB, 0xBF, 0xC3, 0xA9] = .utf8bom ∧
        processFile none .utf8 [0xEF, 0xBB, 0xBF, 0xC3, 0xA9] = (.converted, [0xC3, 0xA9])) := by
  have hd1 : detectEncoding [0x68, 0x69] = .ascii := by
    rw [detectEncoding_scan]; decide
  have hp1 : processFile none .utf16le [0x68, 0x69] =
      (.converted, [0xFF, 0xFE, 0x68, 0x00, 0x69, 0x00]) := by
    rw [processFile, hd1, if_neg (by decide)]
    rfl
  have hd2 : detectEncoding [0xFF, 0xFE, 0xE9, 0x00] = .utf16le :=
    detectEncoding_utf16le_mark _
  have hp2 : processFile none .utf8 [0xFF, 0xFE, 0xE9, 0x00] = (.converted, [0xC3, 0xA9]) := by
    rw [processFile, hd2, if_neg (by decide)]
    rfl
  have hd3 : detectEncoding [0xFF, 0xFE, 0xFF, 0xFE, 0xE9, 0x00] = .utf16le :=
    detectEncoding_utf16le_mark _
  have hp3 : processFile none .utf8 [0xFF, 0xFE, 0xFF, 0xFE, 0xE9, 0x00] =
      (.converted, [0xEF, 0xBB, 0xBF, 0xC3, 0xA9]) := by
    rw [processFile, hd3, if_neg (by decide)]
    rfl
  have h := second_run none .utf16le [0x68, 0x69] [0xFF, 0xFE, 0x68, 0x00, 0x69, 0x00]
  have h' := second_run none .utf8 [0xFF, 0xFE, 0xE9, 0x00] [0xC3, 0xA9]
  have h'' := second_run none .utf8 [0xFF, 0xFE, 0xFF, 0xFE, 0xE9, 0x00]
    [0xEF, 0xBB, 0xBF, 0xC3, 0xA9]
  have a := (h'.2.2.1 (by decide) hp2 ⟨0xC3, by decide, by decide⟩).1 (by decide)
  have c := (h''.2.2.1 (by decide) hp3 ⟨0xEF, by decide, by decide⟩).2 ⟨[0xC3, 0xA9], rfl⟩
  exact ⟨⟨hp1, (h.1 (by decide) hp1).2⟩, ⟨hp2, a.1, a.2⟩, ⟨hp3, c.1, c.2⟩⟩

/-! ### C11: the batch with target `gbk` and no codec library -/

/-- The loop handles every file of the list: the outcomes are those of the
loop body on each file in order, and each counter grows by the number of
files with that outcome. -/
theorem mainLoop_spec (lib : Option Iconv) (t : Encoding) :
    ∀ (files : List Buffer) (st : Tally),
      (mainLoop lib t files st).outcomes = st.outcomes ++ files.map (processFile lib t) ∧
      (mainLoop lib t files st).converted =
        st.converted + files.countP (fun f => (processFile lib t f).1 = .converted) ∧
      (mainLoop lib t files st).skipped =
        st.skipped + files.countP (fun f => (processFile lib t f).1 = .skipped) ∧
      (mainLoop lib t files st).errors =
        st.errors + files.countP (fun f => (processFile lib t f).1 = .errored) := by
  intro files
  induction files with
  | nil => intro st; simp [mainLoop]
  | cons buffer rest ih =>
    intro st
    rw [mainLoop]
    rcases h : processFile lib t buffer with ⟨status, content⟩
    cases status with
    | converted =>
      obtain ⟨a, b, c, d⟩ := ih ⟨st.converted + 1, st.skipped, st.errors,
        bumpStats st.encodingStats (detectEncoding buffer),
        st.outcomes ++ [(.converted, content)]⟩
      simp only [a, b, c, d, List.map_cons, List.countP_cons, h]
      refine ⟨by simp, ?_, ?_, ?_⟩
      all_goals simp
      all_goals omega
    | skipped =>
      obtain ⟨a, b, c, d⟩ := ih ⟨st.converted, st.skipped + 1, st.errors,
        bumpStats st.encodingStats (detectEncoding buffer),
        st.outcomes ++ [(.skipped, content)]⟩
      simp only [a, b, c, d, List.map_cons, List.countP_cons, h]
      refine ⟨by simp, ?_, ?_, ?_⟩
      all_goals simp
      all_goals omega
    | errored =>
      obtain ⟨a, b, c, d⟩ := ih ⟨st.converted, st.skipped, st.errors + 1,
        bumpStats st.encodingStats (detectEncoding buffer),
        st.outcomes ++ [(.errored, content)]⟩
      simp only [a, b, c, d, List.map_cons, List.countP_cons, h]
      refine ⟨by simp, ?_, ?_, ?_⟩
      all_goals simp
      all_goals omega

/-- With no codec library and target `gbk`, the loop body skips a file
labelled `gbk` and fails on every other file, before anything is written. -/
theorem processFile_gbk_none (b : Buffer) :
    processFile none .gbk b =
      (if detectEncoding b = .gbk then Status.skipped else Status.errored, b) := by
  unfold processFile
  by_cases h : detectEncoding b = .gbk
  · rw [if_pos h, if_pos h]
  · rw [if_neg h, if_neg h]
    cases decodeBuffer none b (detectEncoding b) with
    | error e => rfl
    | ok str => rfl

/-- C11: with no codec library `encodeToBuffer(s, 'gbk')` throws for every
text; in the batch with target `gbk` the loop body reports an error for every
file not labelled `gbk` and leaves its bytes as they were, and the loop still
handles every file of the list: one outcome per file, in order, none
converted, the error counter equal to the number of files not labelled
`gbk`. -/
theorem gbk_without_library (s : JSString) (b : Buffer) (files : List Buffer) :
    encodeToBuffer none s .gbk = .error .moduleNotFound ∧
      processFile none .gbk b =
        (if detectEncoding b = .gbk then Status.skipped else Status.errored, b) ∧
      (mainLoop none .gbk files Tally.initial).outcomes =
        files.map (fun f =>
          (if detectEncoding f = .gbk then Status.skipped else Status.errored, f)) ∧
      (mainLoop none .gbk files Tally.initial).outcomes.length = files.length ∧
      (mainLoop none .gbk files Tally.initial).converted = 0 ∧
      (mainLoop none .gbk files Tally.initial).errors =
        files.countP (fun f => detectEncoding f ≠ .gbk) ∧
      (mainLoop none .gbk files Tally.initial).skipped =
        files.countP (fun f => detectEncoding f = .gbk) := by
  obtain ⟨o, c, k, e⟩ := mainLoop_spec none .gbk files Tally.initial
  have ho : (mainLoop none .gbk files Tally.initial).outcomes =
      files.map (fun f =>
        (if detectEncoding f = .gbk then Status.skipped else Status.errored, f)) := by
    rw [o]
    simp only [Tally.initial, List.nil_append]
    exact List.map_congr_left fun f _ => processFile_gbk_none f
  refine ⟨rfl, processFile_gbk_none b, ho, by rw [ho, List.length_map], ?_, ?_, ?_⟩
  · rw [c]
    simp only [Tally.initial, Nat.zero_add, List.countP_eq_zero, processFile_gbk_none]
    intro f _
    by_cases h : detectEncoding f = .gbk <;> simp [h]
  · rw [e]
    simp only [Tally.initial, Nat.zero_add, processFile_gbk_none]
    refine List.countP_congr fun f _ => ?_
    by_cases h : detectEncoding f = .gbk <;> simp [h]
  · rw [k]
    simp only [Tally.initial, Nat.zero_add, processFile_gbk_none]
    refine List.countP_congr fun f _ => ?_
    by_cases h : detectEncoding f = .gbk <;> simp [h]

/-! ### C12 and C13: the two zones of the formula fallback -/

/-- C12, as stated, fails: the lead byte `B0` and trail byte `A1` lie in the
second zone's ranges, but the first zone's test comes first and the fallback
returns `0x4E00`, not `0x4E00 + (0xB0 - 0x81) * 191 + (0xA1 - 0x40) = 0x7172`. -/
theorem fallback_second_zone_counterexample :
    (0x81 ≤ 0xB0 ∧ 0xB0 ≤ 0xFE) ∧ (0x40 ≤ 0xA1 ∧ 0xA1 ≤ 0xFE ∧ 0xA1 ≠ 0x7F) ∧
      GBKDecoder.fallbackGbkToUnicode ((0xB0 <<< 8) ||| 0xA1) = some 0x4E00 ∧
      GBKDecoder.fallbackGbkToUnicode ((0xB0 <<< 8) ||| 0xA1) ≠
        some (0x4E00 + (0xB0 - 0x81) * 191 + (0xA1 - 0x40)) := by
  decide

/-- C12 amended: for a lead byte `z` in `0x81 .. 0xFE` and a trail byte `p` in
`0x40 .. 0xFE` other than `0x7F`, the fallback returns
`0x4E00 + (z - 0x81) * 191 + (p - 0x40)` unless the pair also lies in the
first zone (`z` in `0xB0 .. 0xD7` and `p` in `0xA1 .. 0xFE`), where it returns
`0x4E00 + (z - 0xB0) * 94 + (p - 0xA1)`. -/
theorem fallback_second_zone (z p : Nat) (hz : 0x81 ≤ z ∧ z ≤ 0xFE)
    (hp : 0x40 ≤ p ∧ p ≤ 0xFE ∧ p ≠ 0x7F) :
    GBKDecoder.fallbackGbkToUnicode ((z <<< 8) ||| p) =
      if 0xB0 ≤ z ∧ z ≤ 0xD7 ∧ 0xA1 ≤ p then some (0x4E00 + (z - 0xB0) * 94 + (p - 0xA1))
      else some (0x4E00 + (z - 0x81) * 191 + (p - 0x40)) := by
  rw [fallback_pair z p (by omega) (by omega)]
  by_cases h : 0xB0 ≤ z ∧ z ≤ 0xD7 ∧ 0xA1 ≤ p
  · rw [if_pos h, if_pos (by omega), Nat.add_assoc]
  · rw [if_neg h, if_neg (by omega), if_pos (by omega), Nat.add_assoc]

/-- C12 amended at the pair `81 40`, outside the first zone: U+4E00. -/
theorem fallback_second_zone_witness :
    (0x81 ≤ 0x81 ∧ 0x81 ≤ 0xFE) ∧ (0x40 ≤ 0x40 ∧ 0x40 ≤ 0xFE ∧ 0x40 ≠ 0x7F) ∧
      GBKDecoder.fallbackGbkToUnicode ((0x81 <<< 8) ||| 0x40) = some 0x4E00 :=
  ⟨by decide, by decide, fallback_second_zone 0x81 0x40 (by decide) (by decide)⟩

/-- C13: the pairs `B0 A1` and `81 40` are distinct and the fallback maps both
to U+4E00, so no function from code points to byte pairs gives back the pair
of every mapped pair. -/
theorem fallback_not_invertible :
    GBKDecoder.fallbackGbkToUnicode ((0xB0 <<< 8) ||| 0xA1) = some 0x4E00 ∧
      GBKDecoder.fallbackGbkToUnicode ((0x81 <<< 8) ||| 0x40) = some 0x4E00 ∧
      ((0xB0, 0xA1) : Nat × Nat) ≠ (0x81, 0x40) ∧
      ¬ ∃ g : Nat → Nat × Nat, ∀ z p u : Nat, z < 256 → p < 256 →
        GBKDecoder.fallbackGbkToUnicode ((z <<< 8) ||| p) = some u → g u = (z, p) := by
  have h1 : GBKDecoder.fallbackGbkToUnicode ((0xB0 <<< 8) ||| 0xA1) = some 0x4E00 := by decide
  have h2 : GBKDecoder.fallbackGbkToUnicode ((0x81 <<< 8) ||| 0x40) = some 0x4E00 := by decide
  refine ⟨h1, h2, by decide, ?_⟩
  rintro ⟨g, hg⟩
  have a := hg 0xB0 0xA1 0x4E00 (by decide) (by decide) h1
  have b := hg 0x81 0x40 0x4E00 (by decide) (by decide) h2
  rw [a] at b
  exact absurd b (by decide)

end Easy2D
